import Mathlib

/-!
Shallow embedding of the reconcile-by-comparison pattern of the
ansible-netbox repository, together with its credential resolver and
Trac/Vikunja helpers, and proofs of the specification claims about them.

Embedded sources:
* src/collections/ansible_collections/sbarbett/pihole/plugins/modules/allow_list.py
* src/collections/ansible_collections/sbarbett/pihole/plugins/modules/clients.py
* src/scripts/hass_api_manager.py
* src/mcp-servers/trac/server.py and src/scripts/create_trac_ticket.py
* src/scripts/create_vikunja_task.py
-/

set_option autoImplicit false

namespace Pihole

/-- Lowercasing of a string character by character.  `Char.toLower` maps
exactly the ASCII range A-Z, so two strings have equal `asciiLower` images
precisely when they are equal up to ASCII case.  This embeds the use of
Python `str.lower()` in the group-name comparisons of the modules, whose
claims are stated for ASCII case only. -/
def asciiLower (s : String) : String := ⟨s.data.map Char.toLower⟩

/-- The `existing_groups` mapping of `get_existing_groups` in both modules:
an insertion-ordered dictionary from group name to the group details, of
which only the `id` field is consumed (`details['id']`). -/
abbrev Groups := List (String × Int)

/-- One element of the desired `groups` parameter: either an integer group
id (legacy raw elements) or a group name, as distinguished by the
`isinstance(item, int)` test in `map_groups_to_ids`. -/
inductive GItem where
  | gid (i : Int)
  | byName (s : String)
  deriving Repr, DecidableEq

/-- The inner lookup loop of `map_groups_to_ids` in both modules: iterate
over `existing_groups.items()` in order and return the id of the first
group whose name matches case-insensitively, else nothing. -/
def lookupGroup (gs : Groups) (name : String) : Option Int :=
  match gs with
  | [] => none
  | (n, i) :: rest =>
    if asciiLower n = asciiLower name then some i else lookupGroup rest name

/-- The body of `map_groups_to_ids` for one element of `group_items`:
an integer is taken as an id directly, a name is looked up. -/
def resolveOne (gs : Groups) : GItem → Option Int
  | .gid i => some i
  | .byName s => lookupGroup gs s

/-- The name of one element of `group_items` when it fails to resolve:
only non-integer items can be missing. -/
def unresolvedName (gs : Groups) : GItem → Option String
  | .gid _ => none
  | .byName s => match lookupGroup gs s with
    | some _ => none
    | none => some s

/-- The accumulation loop of `map_groups_to_ids` (identical in
`allow_list.py` and `clients.py`): returns the list `group_ids` of
resolved ids in input order and the list `missing_groups` of names that
did not resolve, also in input order. -/
def map_groups_to_ids (gs : Groups) : List GItem → List Int × List String
  | [] => ([], [])
  | it :: rest =>
    let r := map_groups_to_ids gs rest
    match it with
    | .gid i => (i :: r.1, r.2)
    | .byName s =>
      match lookupGroup gs s with
      | some i => (i :: r.1, r.2)
      | none => (r.1, s :: r.2)

/-- The warning text issued by `module.warn` in `map_groups_to_ids` when
`missing_groups` is non-empty. -/
def warnText (missing : List String) : String :=
  "The following groups were not found and will be ignored: " ++
    String.intercalate ", " missing

/-- The warning emitted by one call of `map_groups_to_ids`: present
exactly when some group name failed to resolve. -/
def groupWarning (missing : List String) : Option String :=
  if missing.isEmpty then none else some (warnText missing)

/-! Remote stores.  The Pi-hole server state visible to the modules is a
collection of entries indexed by a natural key (address for allow lists,
client name for clients).  An association list keeps the embedding
executable. -/

/-- An association list keyed by string, used for the remote collection. -/
abbrev StoreOf (α : Type) := List (String × α)

/-- Lookup of the entry with a given key, first match. -/
def storeGet {α : Type} : StoreOf α → String → Option α
  | [], _ => none
  | (k, v) :: r, key => if k = key then some v else storeGet r key

/-- Insert or replace the entry with a given key. -/
def storeSet {α : Type} : StoreOf α → String → α → StoreOf α
  | [], key, v => [(key, v)]
  | (k, w) :: r, key, v =>
    if k = key then (k, v) :: r else (k, w) :: storeSet r key v

/-- Remove every entry with a given key (the remote delete call). -/
def storeDel {α : Type} : StoreOf α → String → StoreOf α
  | [], _ => []
  | (k, w) :: r, key =>
    if k = key then storeDel r key else (k, w) :: storeDel r key

/-- Apply a patch function to the entry with a given key, if present. -/
def storeUpdateWith {α : Type} : StoreOf α → String → (α → α) → StoreOf α
  | [], _, _ => []
  | (k, w) :: r, key, f =>
    if k = key then (k, f w) :: r else (k, w) :: storeUpdateWith r key f

/-- Python `set(a) != set(b)` negated: the two id lists have the same
underlying set. -/
def sameSet (a b : List Int) : Bool := decide (a.toFinset = b.toFinset)

end Pihole

namespace AllowList

open Pihole

/-- One allow-list entry as the module reads it back from the API
(`existing_list['lists'][0]`): the fields the module compares. -/
structure ListEntry where
  comment : Option String
  groups : List Int
  enabled : Bool
  deriving Repr, DecidableEq

/-- One element of the `lists` module parameter after argument parsing.
`present` is true for `state: present` and false for `state: absent`.
An omitted `comment` is `none` (argument default `None`); an omitted
`groups` is `[]` and an omitted `enabled` is `true` (the argument-spec
defaults), since the module cannot distinguish omission from an explicit
default value for those two fields. -/
structure DesiredList where
  address : String
  present : Bool
  comment : Option String
  groups : List GItem
  enabled : Bool
  deriving Repr, DecidableEq

/-- The per-item action recorded in `processed_results`. -/
inductive LAction where
  | added | updated | unchanged | markedForDeletion | deleted | absentAlready
  deriving Repr, DecidableEq

/-- One element of `processed_results`, projected to the identifying
address and the action (the response payloads are opaque here). -/
structure LRecord where
  address : String
  action : LAction
  deriving Repr, DecidableEq

/-- The remote allow-list collection, keyed by address. -/
abbrev Remote := StoreOf ListEntry

/-- The `needs_update` condition of `run_module`: a non-None desired
comment differing from the stored one, or a non-empty resolved group list
whose set differs from the stored group set, or a differing enabled
flag. -/
def needsUpdate (e : ListEntry) (comment : Option String) (gids : List Int)
    (enabled : Bool) : Bool :=
  (comment.isSome && decide (e.comment ≠ comment)) ||
    (!gids.isEmpty && !sameSet e.groups gids) ||
    decide (e.enabled ≠ enabled)

/-- The entry stored by `add_list(address, comment=comment, groups=groups,
enabled=enabled)`. -/
def createdEntry (comment : Option String) (gids : List Int)
    (enabled : Bool) : ListEntry :=
  { comment := comment, groups := gids, enabled := enabled }

/-- Modelled from the spec: the effect of `update_list` on the remote
entry is the caller-side contract of section 4.2/4.3 of the spec, a patch
that applies exactly the fields carried by the call.  The module always
sends `groups` and `enabled`; a `None` comment stands for a comment the
caller did not supply and leaves the stored comment in place (the most
charitable reading for the sparse-patch claims). -/
def applyUpdate (e : ListEntry) (comment : Option String) (gids : List Int)
    (enabled : Bool) : ListEntry :=
  { comment := match comment with | none => e.comment | some s => some s,
    groups := gids,
    enabled := enabled }

/-- The mutable state threaded through the processing loop of
`run_module`: the remote collection, `processed_results`,
`lists_to_delete`, the `changed` flag and the warnings issued so far. -/
structure LState where
  remote : Remote
  results : List LRecord
  toDelete : List String
  changed : Bool
  warnings : List String
  deriving Repr, DecidableEq

/-- One iteration of the `for list_item in lists_param` loop of
`run_module` (check mode has already exited earlier, so the mutating
branches always run): map the groups, fetch the list live from the
remote, then branch on state and existence exactly as the source does. -/
def processListItem (gs : Groups) (st : LState) (d : DesiredList) : LState :=
  let mg := map_groups_to_ids gs d.groups
  let warns := match groupWarning mg.2 with
    | none => st.warnings
    | some w => st.warnings ++ [w]
  let existing := storeGet st.remote d.address
  if d.present then
    match existing with
    | none =>
      { remote := storeSet st.remote d.address (createdEntry d.comment mg.1 d.enabled),
        results := st.results ++ [⟨d.address, .added⟩],
        toDelete := st.toDelete,
        changed := true,
        warnings := warns }
    | some e =>
      if needsUpdate e d.comment mg.1 d.enabled then
        { remote := storeUpdateWith st.remote d.address
            (fun cur => applyUpdate cur d.comment mg.1 d.enabled),
          results := st.results ++ [⟨d.address, .updated⟩],
          toDelete := st.toDelete,
          changed := true,
          warnings := warns }
      else
        { st with
            results := st.results ++ [⟨d.address, .unchanged⟩],
            warnings := warns }
  else
    match existing with
    | some _ =>
      { st with
          toDelete := st.toDelete ++ [d.address],
          results := st.results ++ [⟨d.address, .markedForDeletion⟩],
          changed := true,
          warnings := warns }
    | none =>
      { st with
          results := st.results ++ [⟨d.address, .absentAlready⟩],
          warnings := warns }

/-- The whole item loop. -/
def runLoop (gs : Groups) (st : LState) : List DesiredList → LState
  | [] => st
  | d :: rest => runLoop gs (processListItem gs st d) rest

/-- The rewrite applied to `processed_results` after `delete_list` on one
address: every record for that address still marked for deletion becomes
deleted. -/
def markDeleted (recs : List LRecord) (addr : String) : List LRecord :=
  recs.map fun r =>
    if r.address = addr ∧ r.action = .markedForDeletion then
      ⟨r.address, .deleted⟩
    else r

/-- One iteration of the deletion pass: `delete_list` on the address and
the rewrite of `processed_results`. -/
def deleteStep (p : Remote × List LRecord) (addr : String) :
    Remote × List LRecord :=
  (storeDel p.1 addr, markDeleted p.2 addr)

/-- `run_module` restricted to the reconciliation it performs (no check
mode, `update_gravity` false): process every desired item, then run the
deletion pass over `lists_to_delete`. -/
def run (gs : Groups) (remote0 : Remote) (desired : List DesiredList) :
    LState :=
  let st := runLoop gs ⟨remote0, [], [], false, []⟩ desired
  let p := st.toDelete.foldl deleteStep (st.remote, st.results)
  { st with remote := p.1, results := p.2 }

end AllowList

namespace Clients

open Pihole

/-- One client entry as read back by `get_existing_clients` from the API:
the fields the module compares (`comment` and `groups`). -/
structure ClientEntry where
  comment : Option String
  groups : List Int
  deriving Repr, DecidableEq

/-- One element of the `clients` module parameter.  `present` is true for
`state: present`.  An omitted `comment` is `none`; an omitted `groups` is
`[]` (the argument-spec default), indistinguishable from an explicitly
empty list. -/
structure DesiredClient where
  name : String
  present : Bool
  comment : Option String
  groups : List GItem
  deriving Repr, DecidableEq

/-- The state value recorded for one client in `result['clients']`. -/
inductive CAction where
  | created | updated | unchanged | deleted
  deriving Repr, DecidableEq

/-- One element of `result['clients']`, projected to the identifying name
and the recorded state. -/
structure CRecord where
  name : String
  action : CAction
  deriving Repr, DecidableEq

/-- The remote client collection, keyed by client name. -/
abbrev CRemote := StoreOf ClientEntry

/-- The `update_needed` condition of `main` in `clients.py`: a non-None
desired comment differing from the stored one, or a stored group id set
differing from the desired group id set.  Unlike the allow-list module
there is no emptiness guard on the desired group list. -/
def clientUpdateNeeded (e : ClientEntry) (comment : Option String)
    (gids : List Int) : Bool :=
  (comment.isSome && decide (e.comment ≠ comment)) || !sameSet e.groups gids

/-- The entry stored by `add_client(name, comment=comment,
groups=groups or [])`. -/
def createdClient (comment : Option String) (gids : List Int) : ClientEntry :=
  { comment := comment, groups := gids }

/-- Modelled from the spec: the effect of `update_client` on the remote
entry, under the caller-side contract of sections 4.2/4.3 of the spec: a
patch applying exactly the fields carried by the call.  The module always
sends `groups`; a `None` comment stands for a comment the caller did not
supply and leaves the stored comment in place. -/
def applyClientUpdate (e : ClientEntry) (comment : Option String)
    (gids : List Int) : ClientEntry :=
  { comment := match comment with | none => e.comment | some s => some s,
    groups := gids }

/-- The mutable state threaded through the `for client_data in clients`
loop of `main`: the live remote collection, `result['clients']`, the
`changed` flag and the warnings issued so far.  The decisions of the loop
are taken against the snapshot fetched once at the start of the run, not
against the live remote. -/
structure CState where
  remote : CRemote
  results : List CRecord
  changed : Bool
  warnings : List String
  deriving Repr, DecidableEq

/-- One iteration of the client loop of `main`: map the groups, then for
a present client decide create/update/unchanged against the snapshot; an
absent client is not handled by this loop at all (deletions are collected
separately). -/
def processClient (gs : Groups) (snapshot : CRemote) (st : CState)
    (d : DesiredClient) : CState :=
  let mg := map_groups_to_ids gs d.groups
  let warns := match groupWarning mg.2 with
    | none => st.warnings
    | some w => st.warnings ++ [w]
  if d.present then
    match storeGet snapshot d.name with
    | none =>
      { remote := storeSet st.remote d.name (createdClient d.comment mg.1),
        results := st.results ++ [⟨d.name, .created⟩],
        changed := true,
        warnings := warns }
    | some e =>
      if clientUpdateNeeded e d.comment mg.1 then
        { remote := storeUpdateWith st.remote d.name
            (fun cur => applyClientUpdate cur d.comment mg.1),
          results := st.results ++ [⟨d.name, .updated⟩],
          changed := true,
          warnings := warns }
      else
        { st with
            results := st.results ++ [⟨d.name, .unchanged⟩],
            warnings := warns }
  else
    { st with warnings := warns }

/-- The whole client loop. -/
def runLoop (gs : Groups) (snapshot : CRemote) (st : CState) :
    List DesiredClient → CState
  | [] => st
  | d :: rest => runLoop gs snapshot (processClient gs snapshot st d) rest

/-- The `clients_to_delete` list computed before the loop: names of
absent-state desired clients present in the snapshot. -/
def toDelete (snapshot : CRemote) (desired : List DesiredClient) :
    List String :=
  desired.filterMap fun d =>
    if !d.present && (storeGet snapshot d.name).isSome then some d.name
    else none

/-- `main` of `clients.py` restricted to the reconciliation it performs
(no check mode): snapshot-based loop, then the deletion section, which
sets `changed`, records one deleted client per name, and issues the
single or batch delete call. -/
def run (gs : Groups) (remote0 : CRemote) (desired : List DesiredClient) :
    CState :=
  let st := runLoop gs remote0 ⟨remote0, [], false, []⟩ desired
  let dels := toDelete remote0 desired
  if dels.isEmpty then st
  else
    { remote := dels.foldl storeDel st.remote,
      results := st.results ++ dels.map (fun n => ⟨n, .deleted⟩),
      changed := true,
      warnings := st.warnings }

end Clients

namespace Hass

/-- Python truthiness of an optional token string: `None` and the empty
string are falsy, which is what every `if not HASS_TOKEN` test in
`hass_api_manager.py` checks. -/
def pyTruthy : Option String → Bool
  | none => false
  | some s => !s.isEmpty

/-- A write of the plaintext token cache file `tmp/hass_token.txt`,
carrying the content and the permission bits set by `os.chmod`. -/
structure CacheWrite where
  content : String
  perm : Nat
  deriving Repr, DecidableEq

/-- The outcome of `get_headers`: either a bearer token, with the cache
write performed on the way if any, or the fatal error path that prints a
message and calls `sys.exit` with the given code. -/
inductive Cred where
  | ok (token : String) (cacheWrite : Option CacheWrite)
  | fatal (msg : String) (exitCode : Nat)
  deriving Repr, DecidableEq

/-- The first line printed on the failure path of `get_headers`. -/
def hassErrorMsg : String :=
  "Error: HASS_TOKEN environment variable is not set and could not be retrieved from vault.yml."

/-- The body of `get_headers` in `hass_api_manager.py`, over the three
token sources: the `HASS_TOKEN` environment variable read at import time,
the content of the `tmp/hass_token.txt` cache file (`none` when the file
is missing or unreadable), and the value extracted from `vault.yml`
(`none` when the vault cannot be read or lacks the key).  The token
variable is reassigned from the cache when falsy, then from the vault
when still falsy, caching a truthy vault value with mode `0o600`; a still
falsy token prints the error and exits with code 1. -/
def get_headers (env tmpFileContent vault : Option String) : Cred :=
  let t1 := if pyTruthy env then env else tmpFileContent
  let t2 := if pyTruthy t1 then t1 else vault
  let cache : Option CacheWrite :=
    if pyTruthy t1 then none
    else if pyTruthy t2 then some ⟨t2.getD "", 0o600⟩ else none
  if pyTruthy t2 then .ok (t2.getD "") cache else .fatal hassErrorMsg 1

/-- Follows the words of the spec (section 4.1): an ordered resolver
chain, first hit wins, in the order environment variable, cached tmp
file, vault decryption; a vault hit is written back to the cache file
with owner-only permissions; if no step produces a value the operation
fails fast with a message naming the environment variable. -/
def resolveSpec (env tmpFileContent vault : Option String) : Cred :=
  if pyTruthy env then .ok (env.getD "") none
  else if pyTruthy tmpFileContent then .ok (tmpFileContent.getD "") none
  else if pyTruthy vault then .ok (vault.getD "") (some ⟨vault.getD "", 0o600⟩)
  else .fatal hassErrorMsg 1

/-- The network requests issued by `check_api_status`: `get_headers()` is
evaluated before `requests.get` is issued, so the failure path exits the
process before any API call. -/
def checkApiStatusCalls (env tmpFileContent vault : Option String) :
    List String :=
  match get_headers env tmpFileContent vault with
  | .fatal _ _ => []
  | .ok _ _ => ["GET /api/"]

end Hass

namespace Trac

/-- One `ticket.create` XML-RPC call as issued by either client, with the
attribute dictionary as a key-value list. -/
structure TCreateCall where
  summary : String
  description : String
  attrs : List (String × String)
  deriving Repr, DecidableEq

/-- A single quote character, used around attribute values in the error
messages of `server.py`. -/
def squo : String := String.singleton (Char.ofNat 39)

/-- Python `s.replace(',', ' ')` for the one-character pattern: a
character-by-character substitution. -/
def commaToSpace (s : String) : String :=
  ⟨s.data.map fun c => if c = ',' then ' ' else c⟩

/-- Splitting a character list at the characters satisfying `p`,
keeping empty fragments (as `str.split` would before they are
dropped). -/
def splitChars (p : Char → Bool) : List Char → List (List Char)
  | [] => [[]]
  | c :: cs =>
    if p c then [] :: splitChars p cs
    else
      match splitChars p cs with
      | [] => [[c]]
      | w :: ws => (c :: w) :: ws

/-- Python `' '.join(keywords.replace(',', ' ').split())` from
`create_ticket` in `server.py`: commas become spaces, then the string is
split on whitespace, empties dropped, and the pieces are rejoined with
single spaces. -/
def normalizeKeywords (k : String) : String :=
  String.intercalate " "
    (((splitChars Char.isWhitespace (commaToSpace k).data).map
        fun l => String.mk l).filter fun p => !p.isEmpty)

/-- The error message of `create_ticket` for an invalid component. -/
def invalidComponentMsg (component : String) (comps : List String) : String :=
  "Error: Invalid component " ++ squo ++ component ++ squo ++
    ". Valid components are: " ++ String.intercalate ", " comps

/-- The error message of `create_ticket` for an invalid priority. -/
def invalidPriorityMsg (priority : String) (prios : List String) : String :=
  "Error: Invalid priority " ++ squo ++ priority ++ squo ++
    ". Valid priorities are: " ++ String.intercalate ", " prios

/-- The `create_ticket` tool of `mcp-servers/trac/server.py`, over the
remote valid component and priority lists returned by
`ticket.component.getAll()` and `ticket.priority.getAll()`, and the
ticket id the remote assigns on success.  Returns the list of mutating
`ticket.create` calls issued and the string returned to the caller. -/
def server_create_ticket (comps prios : List String) (tid : Nat)
    (summary description component ttype priority keywords : String) :
    List TCreateCall × String :=
  let kw := normalizeKeywords keywords
  if component ∉ comps then
    ([], invalidComponentMsg component comps)
  else if priority ∉ prios then
    ([], invalidPriorityMsg priority prios)
  else
    ([⟨summary, description,
        [("type", ttype), ("priority", priority), ("keywords", kw),
         ("component", component), ("cc", "will")]⟩],
      "Successfully created ticket #" ++ toString tid ++ ".")

/-- The `main` of `scripts/create_trac_ticket.py`, which builds the
attribute dictionary from its arguments and issues `ticket.create`
directly: no lookup of `ticket.component.getAll()` or
`ticket.priority.getAll()` happens anywhere in the script.  Returns the
list of mutating `ticket.create` calls issued. -/
def script_create_ticket (summary description component keywords ttype
    priority milestone owner cc : String) : List TCreateCall :=
  let desc := (description.replace "\\n" "\n").replace "&#10;" "\n"
  let kw := commaToSpace keywords
  [⟨summary, desc,
    [("component", component), ("keywords", kw), ("type", ttype),
     ("priority", priority), ("milestone", milestone), ("owner", owner),
     ("cc", cc)]⟩]

end Trac

namespace Vikunja

/-- One Vikunja label as returned by `get_all_labels`. -/
structure VLabel where
  title : String
  id : Int
  deriving Repr, DecidableEq

/-- The label lookup of `create_task` in `create_vikunja_task.py`: the
dict comprehension keys every existing label by its lowercased title
(later entries overwriting earlier ones on collision) and
`label_map.get(label_name.lower())` retrieves the match, so the result is
the last existing label whose lowercased title equals the lowercased
requested name. -/
def labelLookup (ls : List VLabel) (name : String) : Option VLabel :=
  (ls.filter fun l => Pihole.asciiLower l.title = Pihole.asciiLower name).getLast?

end Vikunja

namespace AllowList

open Pihole

/-- Follows the spec words of section 4.3: the action the reconciler must
choose for one desired item, given the current entry under its natural
key (with `DELETE` rendered as the final `deleted` action the module
reports after its deletion pass). -/
def specAction (d : DesiredList) (existing : Option ListEntry)
    (gids : List Int) : LAction :=
  if d.present then
    match existing with
    | none => .added
    | some e =>
      if needsUpdate e d.comment gids d.enabled then .updated else .unchanged
  else
    match existing with
    | some _ => .deleted
    | none => .absentAlready

/-- The action recorded by one loop iteration of `run_module`, as a
function of the live remote at that step (deletions are still only
marked at this point). -/
def stepAction (gs : Groups) (st : LState) (d : DesiredList) : LAction :=
  if d.present then
    match storeGet st.remote d.address with
    | none => .added
    | some e =>
      if needsUpdate e d.comment (map_groups_to_ids gs d.groups).1 d.enabled
      then .updated else .unchanged
  else
    match storeGet st.remote d.address with
    | some _ => .markedForDeletion
    | none => .absentAlready

/-- The entry stored for a present desired item once it has been
processed: created when absent, patched when an update was needed,
untouched otherwise. -/
def targetEntry (gs : Groups) (d : DesiredList) :
    Option ListEntry → ListEntry
  | none => createdEntry d.comment (map_groups_to_ids gs d.groups).1 d.enabled
  | some e =>
    if needsUpdate e d.comment (map_groups_to_ids gs d.groups).1 d.enabled
    then applyUpdate e d.comment (map_groups_to_ids gs d.groups).1 d.enabled
    else e

/-- A mutating action of the allow-list module. -/
def isMut : LAction → Bool
  | .added | .updated | .markedForDeletion | .deleted => true
  | .unchanged | .absentAlready => false

end AllowList

namespace Clients

open Pihole

/-- The entry stored for a present desired client once its loop iteration
has run (decisions taken against the snapshot entry passed here). -/
def targetEntry (gs : Groups) (d : DesiredClient) :
    Option ClientEntry → ClientEntry
  | none => createdClient d.comment (map_groups_to_ids gs d.groups).1
  | some e =>
    if clientUpdateNeeded e d.comment (map_groups_to_ids gs d.groups).1
    then applyClientUpdate e d.comment (map_groups_to_ids gs d.groups).1
    else e

end Clients

namespace Pihole

theorem storeGet_storeSet {α : Type} (r : StoreOf α) (k : String) (v : α)
    (q : String) :
    storeGet (storeSet r k v) q = if q = k then some v else storeGet r q := by
  induction r with
  | nil =>
    by_cases h : k = q
    · subst h
      simp [storeGet, storeSet]
    · simp [storeGet, storeSet, h, Ne.symm h]
  | cons p r ih =>
    obtain ⟨a, w⟩ := p
    by_cases hak : a = k
    · subst hak
      by_cases h2 : a = q
      · subst h2
        simp [storeGet, storeSet]
      · simp [storeGet, storeSet, h2, Ne.symm h2]
    · by_cases h2 : a = q
      · subst h2
        simp [storeGet, storeSet, hak, Ne.symm hak]
      · simp [storeGet, storeSet, hak, h2, ih]

theorem storeGet_storeUpdateWith {α : Type} (r : StoreOf α) (k : String)
    (f : α → α) (q : String) :
    storeGet (storeUpdateWith r k f) q =
      if q = k then (storeGet r k).map f else storeGet r q := by
  induction r with
  | nil => simp [storeGet, storeUpdateWith]
  | cons p r ih =>
    obtain ⟨a, w⟩ := p
    by_cases hak : a = k
    · subst hak
      by_cases h2 : a = q
      · subst h2
        simp [storeGet, storeUpdateWith]
      · simp [storeGet, storeUpdateWith, h2, Ne.symm h2]
    · by_cases h2 : a = q
      · subst h2
        simp [storeGet, storeUpdateWith, hak, Ne.symm hak, ih]
      · simp [storeGet, storeUpdateWith, hak, h2, ih]

theorem storeGet_storeDel {α : Type} (r : StoreOf α) (k : String)
    (q : String) :
    storeGet (storeDel r k) q = if q = k then none else storeGet r q := by
  induction r with
  | nil => simp [storeGet, storeDel]
  | cons p r ih =>
    obtain ⟨a, w⟩ := p
    by_cases hak : a = k
    · subst hak
      by_cases h2 : a = q
      · subst h2
        simp [storeGet, storeDel, ih]
      · simp [storeGet, storeDel, h2, Ne.symm h2, ih]
    · by_cases h2 : a = q
      · subst h2
        simp [storeGet, storeDel, hak, Ne.symm hak, ih]
      · simp [storeGet, storeDel, hak, h2, ih]

theorem map_ids_eq_filterMap (gs : Groups) (items : List GItem) :
    (map_groups_to_ids gs items).1 = items.filterMap (resolveOne gs) := by
  induction items with
  | nil => simp [map_groups_to_ids]
  | cons it rest ih =>
    cases it with
    | gid i => simp [map_groups_to_ids, resolveOne, ih]
    | byName s =>
      cases h : lookupGroup gs s <;>
        simp [map_groups_to_ids, resolveOne, h, ih]

theorem map_missing_eq_filterMap (gs : Groups) (items : List GItem) :
    (map_groups_to_ids gs items).2 = items.filterMap (unresolvedName gs) := by
  induction items with
  | nil => simp [map_groups_to_ids]
  | cons it rest ih =>
    cases it with
    | gid i => simp [map_groups_to_ids, unresolvedName, ih]
    | byName s =>
      cases h : lookupGroup gs s <;>
        simp [map_groups_to_ids, unresolvedName, h, ih]

theorem lookupGroup_resolves (gs : Groups) (name : String)
    (h : ∃ p ∈ gs, asciiLower p.1 = asciiLower name) :
    ∃ i, lookupGroup gs name = some i ∧
      ∃ p ∈ gs, asciiLower p.1 = asciiLower name ∧ p.2 = i := by
  induction gs with
  | nil => simp at h
  | cons p rest ih =>
    obtain ⟨a, w⟩ := p
    by_cases ha : asciiLower a = asciiLower name
    · exact ⟨w, by simp [lookupGroup, ha], ⟨(a, w), by simp, ha, rfl⟩⟩
    · obtain ⟨q, hq, hq2⟩ := h
      rcases List.mem_cons.1 hq with hq1 | hq1
      · subst hq1
        exact absurd hq2 ha
      · obtain ⟨i, hi, q', hq', hq'2, hq'3⟩ := ih ⟨q, hq1, hq2⟩
        exact ⟨i, by simp [lookupGroup, ha, hi],
          ⟨q', List.mem_cons_of_mem _ hq', hq'2, hq'3⟩⟩

theorem getLast?_mem_of_ne_nil {α : Type} (l : List α) (h : l ≠ []) :
    ∃ x, l.getLast? = some x ∧ x ∈ l := by
  induction l with
  | nil => exact absurd rfl h
  | cons a t ih =>
    cases t with
    | nil => exact ⟨a, rfl, by simp⟩
    | cons b t' =>
      obtain ⟨x, hx, hmem⟩ := ih (by simp)
      exact ⟨x, by rw [List.getLast?_cons_cons]; exact hx,
        List.mem_cons_of_mem _ hmem⟩

end Pihole

/-- C6: group and label name resolution is case-insensitive.  Whenever a
requested name agrees with the name of some remote group up to ASCII case,
the lookup loop of `map_groups_to_ids` resolves it to the id of such a
group, and whenever a requested label name agrees with the title of some
existing Vikunja label up to ASCII case, the label map lookup of
`create_task` returns such a label. -/
theorem c6_name_resolution_case_insensitive :
    (∀ (gs : Pihole.Groups) (name : String),
      (∃ p ∈ gs, Pihole.asciiLower p.1 = Pihole.asciiLower name) →
      ∃ i, Pihole.lookupGroup gs name = some i ∧
        ∃ p ∈ gs, Pihole.asciiLower p.1 = Pihole.asciiLower name ∧ p.2 = i) ∧
    (∀ (ls : List Vikunja.VLabel) (name : String),
      (∃ l ∈ ls, Pihole.asciiLower l.title = Pihole.asciiLower name) →
      ∃ l, Vikunja.labelLookup ls name = some l ∧ l ∈ ls ∧
        Pihole.asciiLower l.title = Pihole.asciiLower name) := by
  refine ⟨Pihole.lookupGroup_resolves, fun ls name h => ?_⟩
  obtain ⟨l0, hl0, hl0t⟩ := h
  have hfil : l0 ∈ ls.filter
      fun l => Pihole.asciiLower l.title = Pihole.asciiLower name :=
    List.mem_filter.2 ⟨hl0, by simpa using hl0t⟩
  obtain ⟨x, hx, hxmem⟩ :=
    Pihole.getLast?_mem_of_ne_nil _ (List.ne_nil_of_mem hfil)
  have hxf := List.mem_filter.1 hxmem
  exact ⟨x, hx, hxf.1, by simpa using hxf.2⟩

/-- Witness for C6 at a concrete input: requesting group name "default"
against a remote group named "Default" with id 7 resolves, and likewise
for a Vikunja label. -/
theorem c6_name_resolution_case_insensitive_witness :
    (∃ i, Pihole.lookupGroup [("Default", 7)] "default" = some i ∧
      ∃ p ∈ [(("Default" : String), (7 : Int))],
        Pihole.asciiLower p.1 = Pihole.asciiLower "default" ∧ p.2 = i) ∧
    (∃ l, Vikunja.labelLookup [⟨"Urgent", 3⟩] "urgent" = some l ∧
      l ∈ [(⟨"Urgent", 3⟩ : Vikunja.VLabel)] ∧
      Pihole.asciiLower l.title = Pihole.asciiLower "urgent") :=
  ⟨c6_name_resolution_case_insensitive.1 [("Default", 7)] "default"
      ⟨("Default", 7), by decide, by decide⟩,
    c6_name_resolution_case_insensitive.2 [⟨"Urgent", 3⟩] "urgent"
      ⟨⟨"Urgent", 3⟩, by decide, by decide⟩⟩

namespace Pihole

theorem intercalate_go_infix_acc (s : String) :
    ∀ (as : List String) (acc : String),
      acc.data <:+: (String.intercalate.go acc s as).data := by
  intro as
  induction as with
  | nil => intro acc; exact List.infix_refl _
  | cons a as ih =>
    intro acc
    refine List.IsInfix.trans ?_ (ih (acc ++ s ++ a))
    exact ⟨[], s.data ++ a.data, by simp [String.data_append]⟩

theorem intercalate_go_infix_mem (s x : String) :
    ∀ (as : List String) (acc : String), x ∈ as →
      x.data <:+: (String.intercalate.go acc s as).data := by
  intro as
  induction as with
  | nil => intro acc h; simp at h
  | cons a as ih =>
    intro acc h
    rcases List.mem_cons.1 h with h1 | h1
    · subst h1
      refine List.IsInfix.trans ?_ (intercalate_go_infix_acc s as (acc ++ s ++ x))
      exact ⟨acc.data ++ s.data, [], by simp [String.data_append]⟩
    · exact ih (acc ++ s ++ a) h1

theorem mem_infix_intercalate (x : String) (l : List String) (h : x ∈ l) :
    x.data <:+: (String.intercalate ", " l).data := by
  cases l with
  | nil => simp at h
  | cons a as =>
    rcases List.mem_cons.1 h with h1 | h1
    · subst h1
      exact intercalate_go_infix_acc ", " as x
    · exact intercalate_go_infix_mem ", " x as a h1

theorem mem_infix_warnText (x : String) (l : List String) (h : x ∈ l) :
    x.data <:+: (warnText l).data := by
  refine List.IsInfix.trans (mem_infix_intercalate x l h) ?_
  exact ⟨("The following groups were not found and will be ignored: ").data, [],
    by simp [warnText, String.data_append]⟩

theorem mem_missing_lookup_none (gs : Groups) (items : List GItem)
    (x : String) (h : x ∈ (map_groups_to_ids gs items).2) :
    lookupGroup gs x = none := by
  rw [map_missing_eq_filterMap] at h
  obtain ⟨it, _, hit⟩ := List.mem_filterMap.1 h
  cases it with
  | gid i => simp [unresolvedName] at hit
  | byName s =>
    cases hl : lookupGroup gs s <;> simp [unresolvedName, hl] at hit
    exact hit ▸ hl

end Pihole

namespace AllowList

open Pihole

theorem processListItem_results (gs : Groups) (st : LState)
    (d : DesiredList) :
    (processListItem gs st d).results =
      st.results ++ [⟨d.address, stepAction gs st d⟩] := by
  cases hp : d.present
  · cases hg : storeGet st.remote d.address <;>
      simp [processListItem, stepAction, hp, hg]
  · cases hg : storeGet st.remote d.address
    · simp [processListItem, stepAction, hp, hg]
    · case some e =>
        cases hu : needsUpdate e d.comment (map_groups_to_ids gs d.groups).1
            d.enabled <;>
          simp [processListItem, stepAction, hp, hg, hu]

theorem processListItem_remote_self (gs : Groups) (st : LState)
    (d : DesiredList) (hp : d.present = true) :
    storeGet (processListItem gs st d).remote d.address =
      some (targetEntry gs d (storeGet st.remote d.address)) := by
  cases hg : storeGet st.remote d.address
  · simp [processListItem, targetEntry, hp, hg, storeGet_storeSet]
  · case some e =>
      cases hu : needsUpdate e d.comment (map_groups_to_ids gs d.groups).1
          d.enabled <;>
        simp [processListItem, targetEntry, hp, hg, hu,
          storeGet_storeUpdateWith]

theorem processListItem_remote_frame (gs : Groups) (st : LState)
    (d : DesiredList) (q : String) (hq : q ≠ d.address) :
    storeGet (processListItem gs st d).remote q = storeGet st.remote q := by
  cases hp : d.present
  · cases hg : storeGet st.remote d.address <;>
      simp [processListItem, hp, hg]
  · cases hg : storeGet st.remote d.address
    · simp [processListItem, hp, hg, storeGet_storeSet, hq]
    · case some e =>
        cases hu : needsUpdate e d.comment (map_groups_to_ids gs d.groups).1
            d.enabled <;>
          simp [processListItem, hp, hg, hu, storeGet_storeUpdateWith, hq]

theorem processListItem_warnings (gs : Groups) (st : LState)
    (d : DesiredList) (hm : (map_groups_to_ids gs d.groups).2 ≠ []) :
    (processListItem gs st d).warnings =
      st.warnings ++ [warnText (map_groups_to_ids gs d.groups).2] := by
  have hw : groupWarning (map_groups_to_ids gs d.groups).2 =
      some (warnText (map_groups_to_ids gs d.groups).2) := by
    simp [groupWarning, hm]
  cases hp : d.present
  · cases hg : storeGet st.remote d.address <;>
      simp [processListItem, hp, hg, hw]
  · cases hg : storeGet st.remote d.address
    · simp [processListItem, hp, hg, hw]
    · case some e =>
        cases hu : needsUpdate e d.comment (map_groups_to_ids gs d.groups).1
            d.enabled <;>
          simp [processListItem, hp, hg, hu, hw]

end AllowList

namespace Clients

open Pihole

theorem processClient_results_present (gs : Groups) (snap : CRemote)
    (st : CState) (d : DesiredClient) (hp : d.present = true) :
    ∃ a, (processClient gs snap st d).results = st.results ++ [⟨d.name, a⟩] := by
  cases hg : storeGet snap d.name
  · exact ⟨.created, by simp [processClient, hp, hg]⟩
  · case some e =>
      cases hu : clientUpdateNeeded e d.comment (map_groups_to_ids gs d.groups).1
      · exact ⟨.unchanged, by simp [processClient, hp, hg, hu]⟩
      · exact ⟨.updated, by simp [processClient, hp, hg, hu]⟩

theorem processClient_results_absent (gs : Groups) (snap : CRemote)
    (st : CState) (d : DesiredClient) (hp : d.present = false) :
    (processClient gs snap st d).results = st.results := by
  simp [processClient, hp]

theorem processClient_remote_created (gs : Groups) (snap : CRemote)
    (st : CState) (d : DesiredClient) (hp : d.present = true)
    (hg : storeGet snap d.name = none) :
    storeGet (processClient gs snap st d).remote d.name =
      some (createdClient d.comment (map_groups_to_ids gs d.groups).1) := by
  simp [processClient, hp, hg, storeGet_storeSet]

theorem processClient_remote_updated (gs : Groups) (snap : CRemote)
    (st : CState) (d : DesiredClient) (e e0 : ClientEntry)
    (hp : d.present = true) (hg : storeGet snap d.name = some e)
    (hu : clientUpdateNeeded e d.comment (map_groups_to_ids gs d.groups).1 = true)
    (h0 : storeGet st.remote d.name = some e0) :
    storeGet (processClient gs snap st d).remote d.name =
      some (applyClientUpdate e0 d.comment (map_groups_to_ids gs d.groups).1) := by
  simp [processClient, hp, hg, hu, storeGet_storeUpdateWith, h0]

theorem processClient_remote_frame (gs : Groups) (snap : CRemote)
    (st : CState) (d : DesiredClient) (q : String) (hq : q ≠ d.name) :
    storeGet (processClient gs snap st d).remote q = storeGet st.remote q := by
  cases hp : d.present
  · simp [processClient, hp]
  · cases hg : storeGet snap d.name
    · simp [processClient, hp, hg, storeGet_storeSet, hq]
    · case some e =>
        cases hu : clientUpdateNeeded e d.comment
            (map_groups_to_ids gs d.groups).1 <;>
          simp [processClient, hp, hg, hu, storeGet_storeUpdateWith, hq]

end Clients

/-- C7: unresolvable group names are dropped and warned about, never
fatal.  The resolved id list is exactly the elementwise resolutions that
succeeded, the missing list is exactly the names whose lookup failed, and
each missing name appears verbatim in the warning text; the item is still
processed (exactly one result record) and a created or patched entry
carries exactly the resolved ids as its groups, in both modules. -/
theorem c7_unresolvable_groups_dropped_with_warning :
    (∀ (gs : Pihole.Groups) (items : List Pihole.GItem),
      (Pihole.map_groups_to_ids gs items).1 =
          items.filterMap (Pihole.resolveOne gs) ∧
        (Pihole.map_groups_to_ids gs items).2 =
          items.filterMap (Pihole.unresolvedName gs)) ∧
    (∀ (gs : Pihole.Groups) (items : List Pihole.GItem) (s : String),
      s ∈ (Pihole.map_groups_to_ids gs items).2 →
      Pihole.lookupGroup gs s = none ∧
        s.data <:+: (Pihole.warnText (Pihole.map_groups_to_ids gs items).2).data) ∧
    (∀ (gs : Pihole.Groups) (st : AllowList.LState) (d : AllowList.DesiredList),
      d.present = true →
      (AllowList.processListItem gs st d).results =
          st.results ++ [⟨d.address, AllowList.stepAction gs st d⟩] ∧
        ((Pihole.map_groups_to_ids gs d.groups).2 ≠ [] →
          (AllowList.processListItem gs st d).warnings =
            st.warnings ++ [Pihole.warnText (Pihole.map_groups_to_ids gs d.groups).2]) ∧
        ∃ e, Pihole.storeGet (AllowList.processListItem gs st d).remote d.address =
            some e ∧
          (AllowList.stepAction gs st d = .added ∨
              AllowList.stepAction gs st d = .updated →
            e.groups = (Pihole.map_groups_to_ids gs d.groups).1)) ∧
    (∀ (gs : Pihole.Groups) (snap : Clients.CRemote) (st : Clients.CState)
        (d : Clients.DesiredClient),
      d.present = true →
      (∃ a, (Clients.processClient gs snap st d).results =
          st.results ++ [⟨d.name, a⟩]) ∧
        (Pihole.storeGet snap d.name = none →
          Pihole.storeGet (Clients.processClient gs snap st d).remote d.name =
            some (Clients.createdClient d.comment
              (Pihole.map_groups_to_ids gs d.groups).1))) := by
  refine ⟨fun gs items =>
      ⟨Pihole.map_ids_eq_filterMap gs items,
        Pihole.map_missing_eq_filterMap gs items⟩,
    fun gs items s hs =>
      ⟨Pihole.mem_missing_lookup_none gs items s hs,
        Pihole.mem_infix_warnText s _ hs⟩,
    fun gs st d hp => ?_,
    fun gs snap st d hp =>
      ⟨Clients.processClient_results_present gs snap st d hp,
        fun hg => Clients.processClient_remote_created gs snap st d hp hg⟩⟩
  refine ⟨AllowList.processListItem_results gs st d,
    fun hm => AllowList.processListItem_warnings gs st d hm, ?_⟩
  refine ⟨AllowList.targetEntry gs d (Pihole.storeGet st.remote d.address),
    AllowList.processListItem_remote_self gs st d hp, fun ha => ?_⟩
  cases hg : Pihole.storeGet st.remote d.address with
  | none => simp [AllowList.targetEntry, AllowList.createdEntry]
  | some e =>
    cases hu : AllowList.needsUpdate e d.comment
        (Pihole.map_groups_to_ids gs d.groups).1 d.enabled with
    | true => simp [AllowList.targetEntry, hu, AllowList.applyUpdate]
    | false =>
      rcases ha with ha | ha <;>
        simp [AllowList.stepAction, hp, hg, hu] at ha

/-- Witness for C7 at concrete inputs: the name "nope" fails to resolve
against a remote with only the group "Default", is dropped from the id
list, appears in the warning text, and a present item carrying it is
still added with exactly the resolved ids. -/
theorem c7_unresolvable_groups_dropped_with_warning_witness :
    (Pihole.lookupGroup [("Default", 0)] "nope" = none ∧
      ("nope").data <:+:
        (Pihole.warnText (Pihole.map_groups_to_ids [("Default", 0)]
          [.byName "default", .byName "nope"]).2).data) ∧
    ((AllowList.processListItem [("Default", 0)]
        ⟨[], [], [], false, []⟩
        ⟨"a", true, none, [.byName "default", .byName "nope"], true⟩).results =
      [] ++ [⟨"a", AllowList.stepAction [("Default", 0)]
        ⟨[], [], [], false, []⟩
        ⟨"a", true, none, [.byName "default", .byName "nope"], true⟩⟩]) ∧
    (Pihole.storeGet (Clients.processClient [("Default", 0)] [] ⟨[], [], false, []⟩
        ⟨"c", true, none, [.byName "nope"]⟩).remote "c" =
      some (Clients.createdClient none
        (Pihole.map_groups_to_ids [("Default", 0)] [.byName "nope"]).1)) := by
  refine ⟨?_, ?_, ?_⟩
  · exact c7_unresolvable_groups_dropped_with_warning.2.1 [("Default", 0)]
      [.byName "default", .byName "nope"] "nope" (by decide)
  · exact (c7_unresolvable_groups_dropped_with_warning.2.2.1 [("Default", 0)]
      ⟨[], [], [], false, []⟩
      ⟨"a", true, none, [.byName "default", .byName "nope"], true⟩ rfl).1
  · exact (c7_unresolvable_groups_dropped_with_warning.2.2.2 [("Default", 0)]
      [] ⟨[], [], false, []⟩ ⟨"c", true, none, [.byName "nope"]⟩ rfl).2 rfl

/-- C10: in the allow-list module, an empty desired groups list (the
default when the caller omits groups) never triggers an UPDATE on account
of groups.  The update decision then reduces to the comment and enabled
comparisons, in particular it no longer depends on the remote group set,
and in the no-op case the remote entry (group assignment included) is
left completely untouched. -/
theorem c10_empty_groups_never_trigger_update :
    ∀ (gs : Pihole.Groups) (st : AllowList.LState)
      (d : AllowList.DesiredList) (e : AllowList.ListEntry),
      d.groups = [] →
      (AllowList.needsUpdate e d.comment
          (Pihole.map_groups_to_ids gs d.groups).1 d.enabled =
        ((d.comment.isSome && decide (e.comment ≠ d.comment)) ||
          decide (e.enabled ≠ d.enabled))) ∧
      (d.present = true →
        Pihole.storeGet st.remote d.address = some e →
        AllowList.needsUpdate e d.comment
            (Pihole.map_groups_to_ids gs d.groups).1 d.enabled = false →
        (AllowList.processListItem gs st d).remote = st.remote ∧
          (AllowList.processListItem gs st d).results =
            st.results ++ [⟨d.address, .unchanged⟩]) := by
  intro gs st d e hgrp
  constructor
  · rw [hgrp]
    simp [AllowList.needsUpdate, Pihole.map_groups_to_ids]
  · intro hp hg hu
    constructor
    · simp [AllowList.processListItem, hp, hg, hu]
    · simp [AllowList.processListItem, hp, hg, hu]

/-- Witness for C10: a present item with empty desired groups against a
remote entry whose group set is the non-empty `[1, 2]` and whose comment
and enabled flag match is a no-op, leaving the remote untouched. -/
theorem c10_empty_groups_never_trigger_update_witness :
    (AllowList.needsUpdate ⟨none, [1, 2], true⟩ none
        (Pihole.map_groups_to_ids [] ([] : List Pihole.GItem)).1 true =
      ((Option.isSome (none : Option String) &&
          decide ((⟨none, [1, 2], true⟩ : AllowList.ListEntry).comment ≠ none)) ||
        decide ((⟨none, [1, 2], true⟩ : AllowList.ListEntry).enabled ≠ true))) ∧
    ((AllowList.processListItem []
        ⟨[("a", ⟨none, [1, 2], true⟩)], [], [], false, []⟩
        ⟨"a", true, none, [], true⟩).remote =
      [("a", ⟨none, [1, 2], true⟩)] ∧
      (AllowList.processListItem []
        ⟨[("a", ⟨none, [1, 2], true⟩)], [], [], false, []⟩
        ⟨"a", true, none, [], true⟩).results =
        [] ++ [⟨"a", .unchanged⟩]) :=
  ⟨(c10_empty_groups_never_trigger_update [] ⟨[("a", ⟨none, [1, 2], true⟩)],
      [], [], false, []⟩ ⟨"a", true, none, [], true⟩ ⟨none, [1, 2], true⟩
      rfl).1,
    (c10_empty_groups_never_trigger_update [] ⟨[("a", ⟨none, [1, 2], true⟩)],
      [], [], false, []⟩ ⟨"a", true, none, [], true⟩ ⟨none, [1, 2], true⟩
      rfl).2 rfl (by decide) (by decide)⟩

namespace Pihole

theorem toFinset_eq_imp_isEmpty_eq (a b : List Int)
    (h : a.toFinset = b.toFinset) : a.isEmpty = b.isEmpty := by
  by_cases ha : a = []
  · subst ha
    have hb := (List.toFinset_eq_empty_iff b).1 (by simpa using h.symm)
    simp [hb]
  · by_cases hb : b = []
    · subst hb
      have ha2 := (List.toFinset_eq_empty_iff a).1 (by simpa using h)
      exact absurd ha2 ha
    · cases a with
      | nil => exact absurd rfl ha
      | cons x xs =>
        cases b with
        | nil => exact absurd rfl hb
        | cons y ys => rfl

end Pihole

/-- C5: list-valued fields are compared as sets.  Permuting a desired
group list leaves the set of resolved ids unchanged, and two desired
group lists with equal sets of resolved ids yield the same
update-versus-no-op decision in both modules (same `needs_update` and
`update_needed` values against any remote entry). -/
theorem c5_group_comparison_set_based :
    ∀ (gs : Pihole.Groups) (l1 l2 : List Pihole.GItem),
      (List.Perm l1 l2 →
        (Pihole.map_groups_to_ids gs l1).1.toFinset =
          (Pihole.map_groups_to_ids gs l2).1.toFinset) ∧
      ((Pihole.map_groups_to_ids gs l1).1.toFinset =
          (Pihole.map_groups_to_ids gs l2).1.toFinset →
        (∀ (e : AllowList.ListEntry) (c : Option String) (en : Bool),
          AllowList.needsUpdate e c (Pihole.map_groups_to_ids gs l1).1 en =
            AllowList.needsUpdate e c (Pihole.map_groups_to_ids gs l2).1 en) ∧
        (∀ (e : Clients.ClientEntry) (c : Option String),
          Clients.clientUpdateNeeded e c (Pihole.map_groups_to_ids gs l1).1 =
            Clients.clientUpdateNeeded e c
              (Pihole.map_groups_to_ids gs l2).1)) := by
  intro gs l1 l2
  constructor
  · intro hperm
    rw [Pihole.map_ids_eq_filterMap, Pihole.map_ids_eq_filterMap]
    exact List.toFinset_eq_of_perm _ _ (hperm.filterMap _)
  · intro hset
    have hemp := Pihole.toFinset_eq_imp_isEmpty_eq _ _ hset
    constructor
    · intro e c en
      simp [AllowList.needsUpdate, Pihole.sameSet, hset, hemp]
    · intro e c
      simp [Clients.clientUpdateNeeded, Pihole.sameSet, hset]

/-- Witness for C5: the permuted name lists ["default", "test"] and
["test", "default"] resolve to id lists with equal underlying sets and
produce equal update decisions against a concrete remote entry. -/
theorem c5_group_comparison_set_based_witness :
    ((Pihole.map_groups_to_ids [("Default", 0), ("test", 1)]
        [.byName "default", .byName "test"]).1.toFinset =
      (Pihole.map_groups_to_ids [("Default", 0), ("test", 1)]
        [.byName "test", .byName "default"]).1.toFinset) ∧
    (AllowList.needsUpdate ⟨none, [1, 0], true⟩ none
        (Pihole.map_groups_to_ids [("Default", 0), ("test", 1)]
          [.byName "default", .byName "test"]).1 true =
      AllowList.needsUpdate ⟨none, [1, 0], true⟩ none
        (Pihole.map_groups_to_ids [("Default", 0), ("test", 1)]
          [.byName "test", .byName "default"]).1 true) :=
  ⟨(c5_group_comparison_set_based [("Default", 0), ("test", 1)]
      [.byName "default", .byName "test"] [.byName "test", .byName "default"]).1
      (List.Perm.swap _ _ _),
    ((c5_group_comparison_set_based [("Default", 0), ("test", 1)]
      [.byName "default", .byName "test"]
      [.byName "test", .byName "default"]).2 (by decide)).1
      ⟨none, [1, 0], true⟩ none true⟩

/-- C8: the credential resolver of `hass_api_manager.py` follows the
spec resolver chain exactly: first the `HASS_TOKEN` environment variable,
then the `tmp/hass_token.txt` cache file, then the vault value, the
latter written back to the cache with mode `0o600`; when no source
yields a truthy value it prints a message naming `HASS_TOKEN` and exits
with code 1, and `check_api_status` then issues no API request at all. -/
theorem c8_credential_resolver_chain :
    ∀ (env cachev vault : Option String),
      Hass.get_headers env cachev vault = Hass.resolveSpec env cachev vault ∧
      (Hass.pyTruthy env = false → Hass.pyTruthy cachev = false →
        Hass.pyTruthy vault = false →
        Hass.get_headers env cachev vault = .fatal Hass.hassErrorMsg 1 ∧
          Hass.checkApiStatusCalls env cachev vault = [] ∧
          ("HASS_TOKEN").data <:+: Hass.hassErrorMsg.data ∧ (1 : Nat) ≠ 0) := by
  intro env cachev vault
  constructor
  · cases he : Hass.pyTruthy env <;> cases ht : Hass.pyTruthy cachev <;>
      cases hv : Hass.pyTruthy vault <;>
      simp [Hass.get_headers, Hass.resolveSpec, he, ht, hv]
  · intro he ht hv
    refine ⟨?_, ?_, by decide, by decide⟩
    · simp [Hass.get_headers, he, ht, hv]
    · simp [Hass.checkApiStatusCalls, Hass.get_headers, he, ht, hv]

/-- Witness for C8: with no environment variable, no cache file and no
readable vault, the resolver fails fast with the error message and exit
code 1 and no API call is issued. -/
theorem c8_credential_resolver_chain_witness :
    Hass.get_headers none none none = .fatal Hass.hassErrorMsg 1 ∧
      Hass.checkApiStatusCalls none none none = [] ∧
      ("HASS_TOKEN").data <:+: Hass.hassErrorMsg.data ∧ (1 : Nat) ≠ 0 :=
  (c8_credential_resolver_chain none none none).2 rfl rfl rfl

/-- Counterexample to C9 as stated.  The claim quantifies over every Trac
ticket creation that supplies a component or priority, but the standalone
CLI script `create_trac_ticket.py` validates neither: against a Trac
instance whose only component is "SysAdmin", the script still issues
exactly one `ticket.create` call carrying the invalid component "Bogus",
with no validation error and no consultation of
`ticket.component.getAll()` anywhere in its code path. -/
theorem c9_counterexample_script_skips_validation :
    ("Bogus" : String) ∉ (["SysAdmin"] : List String) ∧
      (Trac.script_create_ticket "s" "d" "Bogus" "" "task" "major" "" "" "").length
        = 1 ∧
      ∃ call ∈ Trac.script_create_ticket "s" "d" "Bogus" "" "task" "major" "" "" "",
        ("component", "Bogus") ∈ call.attrs := by
  refine ⟨by decide, rfl, ?_⟩
  refine ⟨_, List.mem_singleton_self _, ?_⟩
  simp [Trac.script_create_ticket]

/-- C9 amended: in the MCP server tool `create_ticket`, supplied
component and priority values are validated against
`ticket.component.getAll()` and `ticket.priority.getAll()` before any
mutating call: an invalid value yields an error message listing the valid
choices and no `ticket.create` call, while valid values issue exactly one
create call with the validated attributes.  The CLI script
`create_trac_ticket.py` performs no such validation and issues its create
call unconditionally. -/
theorem c9_amended_server_validates_script_does_not :
    ∀ (comps prios : List String) (tid : Nat)
      (su de comp ty pr kw mi ow cc : String),
      (comp ∉ comps →
        Trac.server_create_ticket comps prios tid su de comp ty pr kw =
          ([], Trac.invalidComponentMsg comp comps)) ∧
      (comp ∈ comps → pr ∉ prios →
        Trac.server_create_ticket comps prios tid su de comp ty pr kw =
          ([], Trac.invalidPriorityMsg pr prios)) ∧
      (comp ∈ comps → pr ∈ prios →
        Trac.server_create_ticket comps prios tid su de comp ty pr kw =
          ([⟨su, de,
              [("type", ty), ("priority", pr),
               ("keywords", Trac.normalizeKeywords kw), ("component", comp),
               ("cc", "will")]⟩],
            "Successfully created ticket #" ++ toString tid ++ ".")) ∧
      (Trac.script_create_ticket su de comp kw ty pr mi ow cc).length = 1 := by
  intro comps prios tid su de comp ty pr kw mi ow cc
  refine ⟨fun h1 => ?_, fun h1 h2 => ?_, fun h1 h2 => ?_, rfl⟩
  · simp [Trac.server_create_ticket, h1]
  · simp [Trac.server_create_ticket, h1, h2]
  · simp [Trac.server_create_ticket, h1, h2]

/-- Witness for the amended C9 at concrete inputs: an invalid component
is rejected with the message listing the valid components and no create
call; a valid component and priority produce exactly one create call. -/
theorem c9_amended_server_validates_script_does_not_witness :
    (Trac.server_create_ticket ["SysAdmin"] ["major"] 5 "s" "d" "Bogus"
        "task" "major" "" = ([], Trac.invalidComponentMsg "Bogus" ["SysAdmin"])) ∧
    (Trac.server_create_ticket ["SysAdmin"] ["major"] 5 "s" "d" "SysAdmin"
        "task" "low" "" = ([], Trac.invalidPriorityMsg "low" ["major"])) ∧
    (Trac.server_create_ticket ["SysAdmin"] ["major"] 5 "s" "d" "SysAdmin"
        "task" "major" "" =
      ([⟨"s", "d",
          [("type", "task"), ("priority", "major"),
           ("keywords", Trac.normalizeKeywords ""), ("component", "SysAdmin"),
           ("cc", "will")]⟩], "Successfully created ticket #5.")) :=
  ⟨(c9_amended_server_validates_script_does_not ["SysAdmin"] ["major"] 5
      "s" "d" "Bogus" "task" "major" "" "" "" "").1 (by decide),
    (c9_amended_server_validates_script_does_not ["SysAdmin"] ["major"] 5
      "s" "d" "SysAdmin" "task" "low" "" "" "" "").2.1 (by decide) (by decide),
    (c9_amended_server_validates_script_does_not ["SysAdmin"] ["major"] 5
      "s" "d" "SysAdmin" "task" "major" "" "" "" "").2.2.1 (by decide)
      (by decide)⟩

/-- Counterexample to C2 as stated.  In the allow-list module an omitted
`enabled` takes the argument-spec default `true`, and in the clients
module an omitted `groups` takes the default `[]` and is compared as the
empty set, so both omissions can themselves trigger an UPDATE whose
payload overwrites the remote value of the omitted field.  Concretely: a
desired allow-list item for "u" supplying only the address (comment
omitted, groups omitted, enabled omitted hence `true`) against a remote
entry that is disabled produces an UPDATE after which the remote entry is
enabled; and a desired client "c" omitting groups against a remote client
in group 1 produces an UPDATE after which the remote group set is
empty. -/
theorem c2_counterexample_omitted_field_overwritten :
    ((AllowList.run [] [("u", ⟨none, [], false⟩)]
        [⟨"u", true, none, [], true⟩]).results = [⟨"u", .updated⟩] ∧
      Pihole.storeGet (AllowList.run [] [("u", ⟨none, [], false⟩)]
        [⟨"u", true, none, [], true⟩]).remote "u" = some ⟨none, [], true⟩ ∧
      (false : Bool) ≠ (true : Bool)) ∧
    ((Clients.run [] [("c", ⟨some "k", [1]⟩)]
        [⟨"c", true, none, []⟩]).results = [⟨"c", .updated⟩] ∧
      Pihole.storeGet (Clients.run [] [("c", ⟨some "k", [1]⟩)]
        [⟨"c", true, none, []⟩]).remote "c" = some ⟨some "k", []⟩ ∧
      ([1] : List Int) ≠ []) := by
  exact ⟨⟨by decide, by decide, by decide⟩, ⟨by decide, by decide, by decide⟩⟩

/-- C2 amended: of the optional fields, only the comment obeys the
sparse-patch rule.  An omitted (None) comment never triggers an update by
itself and is preserved across whatever the item processing does to the
remote entry, in both modules; omitted groups (clients) and omitted
enabled (allow list) take defaults that are always sent and compared, and
can overwrite the remote value. -/
theorem c2_amended_omitted_comment_preserved :
    (∀ (gs : Pihole.Groups) (st : AllowList.LState)
        (d : AllowList.DesiredList) (e : AllowList.ListEntry),
      d.comment = none →
      Pihole.storeGet st.remote d.address = some e →
      ∃ e', Pihole.storeGet (AllowList.processListItem gs st d).remote
          d.address = some e' ∧ e'.comment = e.comment) ∧
    (∀ (gs : Pihole.Groups) (snap : Clients.CRemote) (st : Clients.CState)
        (d : Clients.DesiredClient) (e e0 : Clients.ClientEntry),
      d.comment = none →
      Pihole.storeGet snap d.name = some e →
      Pihole.storeGet st.remote d.name = some e0 →
      ∃ e', Pihole.storeGet (Clients.processClient gs snap st d).remote
          d.name = some e' ∧ e'.comment = e0.comment) := by
  constructor
  · intro gs st d e hc hg
    cases hp : d.present
    · refine ⟨e, ?_, rfl⟩
      cases hga : Pihole.storeGet st.remote d.address <;>
        simp [AllowList.processListItem, hp, hga] <;> simp [hga] at hg <;>
        exact hg
    · refine ⟨AllowList.targetEntry gs d (Pihole.storeGet st.remote d.address),
        AllowList.processListItem_remote_self gs st d hp, ?_⟩
      rw [hg]
      simp only [AllowList.targetEntry, AllowList.applyUpdate, hc]
      split <;> rfl
  · intro gs snap st d e e0 hc hgs hg0
    cases hp : d.present
    · exact ⟨e0, by simp [Clients.processClient, hp, hg0], rfl⟩
    · cases hu : Clients.clientUpdateNeeded e d.comment
          (Pihole.map_groups_to_ids gs d.groups).1
      · exact ⟨e0, by simp [Clients.processClient, hp, hgs, hu, hg0], rfl⟩
      · refine ⟨Clients.applyClientUpdate e0 d.comment
            (Pihole.map_groups_to_ids gs d.groups).1,
          Clients.processClient_remote_updated gs snap st d e e0 hp hgs hu hg0,
          ?_⟩
        simp [Clients.applyClientUpdate, hc]

/-- Witness for the amended C2: an update of "u" triggered by a changed
enabled flag, with the comment omitted, leaves the stored comment "keep"
in place, in the allow-list module; likewise for a client update
triggered by a changed group set. -/
theorem c2_amended_omitted_comment_preserved_witness :
    (∃ e', Pihole.storeGet (AllowList.processListItem []
        ⟨[("u", ⟨some "keep", [], false⟩)], [], [], false, []⟩
        ⟨"u", true, none, [], true⟩).remote "u" = some e' ∧
      e'.comment = (⟨some "keep", [], false⟩ : AllowList.ListEntry).comment) ∧
    (∃ e', Pihole.storeGet (Clients.processClient []
        [("c", ⟨some "keep", [1]⟩)] ⟨[("c", ⟨some "keep", [1]⟩)], [], false, []⟩
        ⟨"c", true, none, []⟩).remote "c" = some e' ∧
      e'.comment = (⟨some "keep", [1]⟩ : Clients.ClientEntry).comment) :=
  ⟨c2_amended_omitted_comment_preserved.1 []
      ⟨[("u", ⟨some "keep", [], false⟩)], [], [], false, []⟩
      ⟨"u", true, none, [], true⟩ ⟨some "keep", [], false⟩ rfl (by decide),
    c2_amended_omitted_comment_preserved.2 [] [("c", ⟨some "keep", [1]⟩)]
      ⟨[("c", ⟨some "keep", [1]⟩)], [], false, []⟩
      ⟨"c", true, none, []⟩ ⟨some "keep", [1]⟩ ⟨some "keep", [1]⟩ rfl
      (by decide) (by decide)⟩

namespace AllowList

open Pihole

theorem processListItem_changed (gs : Groups) (st : LState) (d : DesiredList) :
    (processListItem gs st d).changed =
      (st.changed || isMut (stepAction gs st d)) := by
  cases hp : d.present
  · cases hg : storeGet st.remote d.address <;>
      simp [processListItem, stepAction, isMut, hp, hg]
  · cases hg : storeGet st.remote d.address
    · simp [processListItem, stepAction, isMut, hp, hg]
    · case some e =>
        cases hu : needsUpdate e d.comment (map_groups_to_ids gs d.groups).1
            d.enabled <;>
          simp [processListItem, stepAction, isMut, hp, hg, hu]

theorem processListItem_toDelete_mono (gs : Groups) (st : LState)
    (d : DesiredList) :
    ∃ m, (processListItem gs st d).toDelete = st.toDelete ++ m := by
  cases hp : d.present
  · cases hg : storeGet st.remote d.address
    · exact ⟨[], by simp [processListItem, hp, hg]⟩
    · exact ⟨[d.address], by simp [processListItem, hp, hg]⟩
  · cases hg : storeGet st.remote d.address
    · exact ⟨[], by simp [processListItem, hp, hg]⟩
    · case some e =>
        cases hu : needsUpdate e d.comment (map_groups_to_ids gs d.groups).1
            d.enabled
        · exact ⟨[], by simp [processListItem, hp, hg, hu]⟩
        · exact ⟨[], by simp [processListItem, hp, hg, hu]⟩

theorem processListItem_toDelete_marked (gs : Groups) (st : LState)
    (d : DesiredList) (h : stepAction gs st d = .markedForDeletion) :
    d.address ∈ (processListItem gs st d).toDelete := by
  cases hp : d.present
  · cases hg : storeGet st.remote d.address
    · simp [stepAction, hp, hg] at h
    · simp [processListItem, hp, hg]
  · cases hg : storeGet st.remote d.address
    · simp [stepAction, hp, hg] at h
    · case some e =>
        cases hu : needsUpdate e d.comment (map_groups_to_ids gs d.groups).1
            d.enabled <;>
          simp [stepAction, hp, hg, hu] at h

theorem runLoop_toDelete_mono (gs : Groups) :
    ∀ (items : List DesiredList) (st : LState),
      ∃ m, (runLoop gs st items).toDelete = st.toDelete ++ m := by
  intro items
  induction items with
  | nil => intro st; exact ⟨[], by simp [runLoop]⟩
  | cons d rest ih =>
    intro st
    obtain ⟨m1, hm1⟩ := processListItem_toDelete_mono gs st d
    obtain ⟨m2, hm2⟩ := ih (processListItem gs st d)
    exact ⟨m1 ++ m2, by rw [runLoop, hm2, hm1, List.append_assoc]⟩

theorem runLoop_spec (gs : Groups) :
    ∀ (items : List DesiredList) (st : LState),
      ∃ L, (runLoop gs st items).results = st.results ++ L ∧
        (runLoop gs st items).changed =
          (st.changed || L.any fun r => isMut r.action) ∧
        ∀ r ∈ L, r.action = .markedForDeletion →
          r.address ∈ (runLoop gs st items).toDelete := by
  intro items
  induction items with
  | nil =>
    intro st
    exact ⟨[], by simp [runLoop], by simp [runLoop], by simp⟩
  | cons d rest ih =>
    intro st
    obtain ⟨L, hL, hc, hmk⟩ := ih (processListItem gs st d)
    refine ⟨⟨d.address, stepAction gs st d⟩ :: L, ?_, ?_, ?_⟩
    · rw [runLoop, hL, processListItem_results]
      simp
    · rw [runLoop, hc, processListItem_changed]
      simp [Bool.or_assoc]
    · intro r hr hm
      rcases List.mem_cons.1 hr with h1 | h1
      · subst h1
        obtain ⟨m2, hm2⟩ := runLoop_toDelete_mono gs rest (processListItem gs st d)
        rw [runLoop, hm2]
        refine List.mem_append_left _ ?_
        exact processListItem_toDelete_marked gs st d (by simpa using hm)
      · exact hmk r h1 hm

theorem deleteFold_snd (tds : List String) :
    ∀ (r : Remote) (recs : List LRecord),
      (tds.foldl deleteStep (r, recs)).2 =
        recs.map fun x =>
          if x.action = .markedForDeletion ∧ x.address ∈ tds then
            ⟨x.address, .deleted⟩ else x := by
  induction tds with
  | nil =>
    intro r recs
    simp
  | cons a tds ih =>
    intro r recs
    rw [List.foldl_cons]
    have hds : deleteStep (r, recs) a = (storeDel r a, markDeleted recs a) := rfl
    rw [hds, ih, markDeleted, List.map_map]
    refine List.map_congr_left ?_
    intro x hx
    by_cases hm : x.action = .markedForDeletion
    · by_cases ha : x.address = a
      · simp [Function.comp, hm, ha]
      · simp [Function.comp, hm, ha]
    · simp [Function.comp, hm]

theorem run_results_of_loop (gs : Groups) (remote0 : Remote)
    (desired : List DesiredList) :
    (run gs remote0 desired).results =
      ((runLoop gs ⟨remote0, [], [], false, []⟩ desired).results).map fun x =>
        if x.action = .markedForDeletion ∧
            x.address ∈ (runLoop gs ⟨remote0, [], [], false, []⟩ desired).toDelete
        then ⟨x.address, .deleted⟩ else x := by
  have h := deleteFold_snd
    (runLoop gs ⟨remote0, [], [], false, []⟩ desired).toDelete
    (runLoop gs ⟨remote0, [], [], false, []⟩ desired).remote
    (runLoop gs ⟨remote0, [], [], false, []⟩ desired).results
  exact h

theorem run_changed_of_loop (gs : Groups) (remote0 : Remote)
    (desired : List DesiredList) :
    (run gs remote0 desired).changed =
      (runLoop gs ⟨remote0, [], [], false, []⟩ desired).changed := rfl

end AllowList

namespace AllowList

open Pihole

theorem stepAction_remote_only (gs : Groups) (st : LState) (R : Remote)
    (d : DesiredList)
    (h : storeGet st.remote d.address = storeGet R d.address) :
    stepAction gs st d = stepAction gs ⟨R, [], [], false, []⟩ d := by
  simp only [stepAction, h]

theorem runLoop_remote_frame (gs : Groups) :
    ∀ (items : List DesiredList) (st : LState) (q : String),
      (∀ d ∈ items, q ≠ d.address) →
      storeGet (runLoop gs st items).remote q = storeGet st.remote q := by
  intro items
  induction items with
  | nil => intro st q _; simp [runLoop]
  | cons d rest ih =>
    intro st q hq
    rw [runLoop, ih (processListItem gs st d) q
      (fun d' hd' => hq d' (List.mem_cons_of_mem _ hd'))]
    exact processListItem_remote_frame gs st d q (hq d (List.mem_cons_self _ _))

theorem runLoop_results_ref (gs : Groups) (R : Remote) :
    ∀ (items : List DesiredList) (st : LState),
      (items.map fun d => d.address).Nodup →
      (∀ d ∈ items, storeGet st.remote d.address = storeGet R d.address) →
      (runLoop gs st items).results = st.results ++
        items.map fun d => ⟨d.address, stepAction gs ⟨R, [], [], false, []⟩ d⟩ := by
  intro items
  induction items with
  | nil => intro st _ _; simp [runLoop]
  | cons d rest ih =>
    intro st hnd href
    have hnd2 : (∀ x ∈ rest, ¬x.address = d.address) ∧
        (rest.map fun d => d.address).Nodup := by simpa using hnd
    have hne : ∀ d' ∈ rest, d'.address ≠ d.address := fun d' hd' => hnd2.1 d' hd'
    rw [runLoop, ih (processListItem gs st d) hnd2.2 ?_]
    · rw [processListItem_results,
        stepAction_remote_only gs st R d (href d (List.mem_cons_self _ _))]
      simp
    · intro d' hd'
      rw [processListItem_remote_frame gs st d d'.address (hne d' hd')]
      exact href d' (List.mem_cons_of_mem _ hd')

theorem runLoop_remote_target (gs : Groups) (R : Remote) :
    ∀ (items : List DesiredList) (st : LState),
      (items.map fun d => d.address).Nodup →
      (∀ d ∈ items, d.present = true) →
      (∀ d ∈ items, storeGet st.remote d.address = storeGet R d.address) →
      ∀ d ∈ items, storeGet (runLoop gs st items).remote d.address =
        some (targetEntry gs d (storeGet R d.address)) := by
  intro items
  induction items with
  | nil => intro st _ _ _ d hd; simp at hd
  | cons a rest ih =>
    intro st hnd hp href d hd
    have hnd2 : (∀ x ∈ rest, ¬x.address = a.address) ∧
        (rest.map fun d => d.address).Nodup := by simpa using hnd
    have hnd' := hnd2.2
    have hne : ∀ d' ∈ rest, d'.address ≠ a.address := fun d' hd' => hnd2.1 d' hd'
    rcases List.mem_cons.1 hd with h1 | h1
    · subst h1
      rw [runLoop, runLoop_remote_frame gs rest (processListItem gs st d)
        d.address (fun d' hd' => (hne d' hd').symm)]
      rw [processListItem_remote_self gs st d (hp d (List.mem_cons_self _ _)),
        href d (List.mem_cons_self _ _)]
    · rw [runLoop]
      refine ih (processListItem gs st a) hnd'
        (fun d' hd' => hp d' (List.mem_cons_of_mem _ hd')) ?_ d h1
      intro d' hd'
      rw [processListItem_remote_frame gs st a d'.address (hne d' hd')]
      exact href d' (List.mem_cons_of_mem _ hd')

theorem needsUpdate_targetEntry (gs : Groups) (d : DesiredList)
    (e0 : Option ListEntry) :
    needsUpdate (targetEntry gs d e0) d.comment
      (map_groups_to_ids gs d.groups).1 d.enabled = false := by
  cases e0 with
  | none =>
    cases hc : d.comment <;>
      simp [targetEntry, createdEntry, needsUpdate, sameSet, hc]
  | some e =>
    cases hu : needsUpdate e d.comment (map_groups_to_ids gs d.groups).1
        d.enabled
    · simpa [targetEntry, hu] using hu
    · simp only [targetEntry, hu, if_true]
      cases hc : d.comment <;>
        simp [applyUpdate, needsUpdate, sameSet, hc]

theorem processListItem_satisfied (gs : Groups) (st : LState)
    (d : DesiredList) (e : ListEntry) (hp : d.present = true)
    (hg : storeGet st.remote d.address = some e)
    (hu : needsUpdate e d.comment (map_groups_to_ids gs d.groups).1
      d.enabled = false) :
    (processListItem gs st d).remote = st.remote ∧
      (processListItem gs st d).results =
        st.results ++ [⟨d.address, .unchanged⟩] ∧
      (processListItem gs st d).changed = st.changed ∧
      (processListItem gs st d).toDelete = st.toDelete := by
  refine ⟨?_, ?_, ?_, ?_⟩ <;> simp [processListItem, hp, hg, hu]

theorem runLoop_all_satisfied (gs : Groups) :
    ∀ (items : List DesiredList) (st : LState),
      (∀ d ∈ items, d.present = true ∧
        ∃ e, storeGet st.remote d.address = some e ∧
          needsUpdate e d.comment (map_groups_to_ids gs d.groups).1
            d.enabled = false) →
      (runLoop gs st items).remote = st.remote ∧
        (runLoop gs st items).results = st.results ++
          items.map (fun d => ⟨d.address, LAction.unchanged⟩) ∧
        (runLoop gs st items).changed = st.changed ∧
        (runLoop gs st items).toDelete = st.toDelete := by
  intro items
  induction items with
  | nil => intro st _; simp [runLoop]
  | cons d rest ih =>
    intro st h
    obtain ⟨hp, e, hg, hu⟩ := h d (List.mem_cons_self _ _)
    obtain ⟨hrem, hres, hch, htd⟩ := processListItem_satisfied gs st d e hp hg hu
    have hrest := ih (processListItem gs st d) ?_
    · refine ⟨by rw [runLoop, hrest.1, hrem],
        by rw [runLoop, hrest.2.1, hres]; simp,
        by rw [runLoop, hrest.2.2.1, hch],
        by rw [runLoop, hrest.2.2.2, htd]⟩
    · intro d' hd'
      rw [hrem]
      exact h d' (List.mem_cons_of_mem _ hd')

theorem runLoop_toDelete_present (gs : Groups) :
    ∀ (items : List DesiredList) (st : LState),
      (∀ d ∈ items, d.present = true) →
      (runLoop gs st items).toDelete = st.toDelete := by
  intro items
  induction items with
  | nil => intro st _; simp [runLoop]
  | cons d rest ih =>
    intro st h
    have hp := h d (List.mem_cons_self _ _)
    rw [runLoop, ih (processListItem gs st d)
      (fun d' hd' => h d' (List.mem_cons_of_mem _ hd'))]
    cases hg : storeGet st.remote d.address
    · simp [processListItem, hp, hg]
    · case some e =>
        cases hu : needsUpdate e d.comment (map_groups_to_ids gs d.groups).1
            d.enabled <;>
          simp [processListItem, hp, hg, hu]

theorem run_remote_of_present (gs : Groups) (remote0 : Remote)
    (desired : List DesiredList) (hp : ∀ d ∈ desired, d.present = true) :
    (run gs remote0 desired).remote =
      (runLoop gs ⟨remote0, [], [], false, []⟩ desired).remote := by
  have htd : (runLoop gs ⟨remote0, [], [], false, []⟩ desired).toDelete = [] :=
    runLoop_toDelete_present gs desired _ hp
  show ((runLoop gs ⟨remote0, [], [], false, []⟩ desired).toDelete.foldl
      deleteStep ((runLoop gs ⟨remote0, [], [], false, []⟩ desired).remote,
        (runLoop gs ⟨remote0, [], [], false, []⟩ desired).results)).1 = _
  rw [htd]
  simp

theorem run_results_of_present (gs : Groups) (remote0 : Remote)
    (desired : List DesiredList) (hp : ∀ d ∈ desired, d.present = true) :
    (run gs remote0 desired).results =
      (runLoop gs ⟨remote0, [], [], false, []⟩ desired).results := by
  have htd : (runLoop gs ⟨remote0, [], [], false, []⟩ desired).toDelete = [] :=
    runLoop_toDelete_present gs desired _ hp
  show ((runLoop gs ⟨remote0, [], [], false, []⟩ desired).toDelete.foldl
      deleteStep ((runLoop gs ⟨remote0, [], [], false, []⟩ desired).remote,
        (runLoop gs ⟨remote0, [], [], false, []⟩ desired).results)).2 = _
  rw [htd]
  simp

end AllowList

namespace Clients

open Pihole

theorem processClient_spec (gs : Groups) (snap : CRemote) (st : CState)
    (d : DesiredClient) :
    ∃ recs, (processClient gs snap st d).results = st.results ++ recs ∧
      (processClient gs snap st d).changed =
        (st.changed || recs.any fun r =>
          decide (r.action = .created ∨ r.action = .updated)) ∧
      (∀ r ∈ recs, r.action = .created ∨ r.action = .updated ∨
        r.action = .unchanged) ∧
      recs.length = if d.present then 1 else 0 := by
  cases hp : d.present
  · exact ⟨[], by simp [processClient, hp], by simp [processClient, hp],
      by simp, by simp⟩
  · cases hg : storeGet snap d.name
    · refine ⟨[⟨d.name, .created⟩], ?_, ?_, ?_, ?_⟩ <;>
        simp [processClient, hp, hg]
    · case some e =>
        cases hu : clientUpdateNeeded e d.comment
            (map_groups_to_ids gs d.groups).1
        · refine ⟨[⟨d.name, .unchanged⟩], ?_, ?_, ?_, ?_⟩ <;>
            simp [processClient, hp, hg, hu]
        · refine ⟨[⟨d.name, .updated⟩], ?_, ?_, ?_, ?_⟩ <;>
            simp [processClient, hp, hg, hu]

theorem runLoopC_spec (gs : Groups) (snap : CRemote) :
    ∀ (items : List DesiredClient) (st : CState),
      ∃ L, (runLoop gs snap st items).results = st.results ++ L ∧
        (runLoop gs snap st items).changed =
          (st.changed || L.any fun r =>
            decide (r.action = .created ∨ r.action = .updated)) ∧
        (∀ r ∈ L, r.action = .created ∨ r.action = .updated ∨
          r.action = .unchanged) ∧
        L.length = (items.filter fun d => d.present).length := by
  intro items
  induction items with
  | nil =>
    intro st
    exact ⟨[], by simp [runLoop], by simp [runLoop], by simp, by simp⟩
  | cons d rest ih =>
    intro st
    obtain ⟨recs, hres, hch, hact, hlen⟩ := processClient_spec gs snap st d
    obtain ⟨L, hL, hc, ha, hl⟩ := ih (processClient gs snap st d)
    refine ⟨recs ++ L, ?_, ?_, ?_, ?_⟩
    · rw [runLoop, hL, hres, List.append_assoc]
    · rw [runLoop, hc, hch]
      simp [Bool.or_assoc]
    · intro r hr
      rcases List.mem_append.1 hr with h1 | h1
      · exact hact r h1
      · exact ha r h1
    · rw [List.length_append, hlen, hl]
      cases hp : d.present <;> simp [hp, Nat.add_comm]

theorem toDelete_nil_of_present (snap : CRemote) (desired : List DesiredClient)
    (hp : ∀ d ∈ desired, d.present = true) :
    toDelete snap desired = [] := by
  induction desired with
  | nil => simp [toDelete]
  | cons d rest ih =>
    have h1 := hp d (List.mem_cons_self _ _)
    have ih2 := ih fun d' hd' => hp d' (List.mem_cons_of_mem _ hd')
    simp only [toDelete] at ih2 ⊢
    rw [List.filterMap_cons]
    simp [h1, ih2]
    intro a ha hfa
    simp [hp a (List.mem_cons_of_mem _ ha)] at hfa

theorem run_eq_runLoop_of_present (gs : Groups) (remote0 : CRemote)
    (desired : List DesiredClient) (hp : ∀ d ∈ desired, d.present = true) :
    run gs remote0 desired =
      runLoop gs remote0 ⟨remote0, [], false, []⟩ desired := by
  have h := toDelete_nil_of_present remote0 desired hp
  simp [run, h]

theorem runLoopC_remote_frame (gs : Groups) (snap : CRemote) :
    ∀ (items : List DesiredClient) (st : CState) (q : String),
      (∀ d ∈ items, q ≠ d.name) →
      storeGet (runLoop gs snap st items).remote q = storeGet st.remote q := by
  intro items
  induction items with
  | nil => intro st q _; simp [runLoop]
  | cons d rest ih =>
    intro st q hq
    rw [runLoop, ih (processClient gs snap st d) q
      (fun d' hd' => hq d' (List.mem_cons_of_mem _ hd'))]
    exact processClient_remote_frame gs snap st d q (hq d (List.mem_cons_self _ _))

theorem clientUpdateNeeded_targetEntry (gs : Groups) (d : DesiredClient)
    (e0 : Option ClientEntry) :
    clientUpdateNeeded (targetEntry gs d e0) d.comment
      (map_groups_to_ids gs d.groups).1 = false := by
  cases e0 with
  | none =>
    cases hc : d.comment <;>
      simp [targetEntry, createdClient, clientUpdateNeeded, sameSet, hc]
  | some e =>
    cases hu : clientUpdateNeeded e d.comment (map_groups_to_ids gs d.groups).1
    · simpa [targetEntry, hu] using hu
    · simp only [targetEntry, hu, if_true]
      cases hc : d.comment <;>
        simp [applyClientUpdate, clientUpdateNeeded, sameSet, hc]

theorem runLoopC_remote_target (gs : Groups) (snap : CRemote) :
    ∀ (items : List DesiredClient) (st : CState),
      (items.map fun d => d.name).Nodup →
      (∀ d ∈ items, d.present = true) →
      (∀ d ∈ items, storeGet st.remote d.name = storeGet snap d.name) →
      ∀ d ∈ items, storeGet (runLoop gs snap st items).remote d.name =
        some (targetEntry gs d (storeGet snap d.name)) := by
  intro items
  induction items with
  | nil => intro st _ _ _ d hd; simp at hd
  | cons a rest ih =>
    intro st hnd hp href d hd
    have hnd2 : (∀ x ∈ rest, ¬x.name = a.name) ∧
        (rest.map fun d => d.name).Nodup := by simpa using hnd
    have hne : ∀ d' ∈ rest, d'.name ≠ a.name := fun d' hd' => hnd2.1 d' hd'
    rcases List.mem_cons.1 hd with h1 | h1
    · subst h1
      rw [runLoop, runLoopC_remote_frame gs snap rest (processClient gs snap st d)
        d.name (fun d' hd' => (hne d' hd').symm)]
      have hpd := hp d (List.mem_cons_self _ _)
      cases hg : storeGet snap d.name
      · rw [processClient_remote_created gs snap st d hpd hg]
        simp [targetEntry]
      · case some e =>
          cases hu : clientUpdateNeeded e d.comment
              (map_groups_to_ids gs d.groups).1
          · have : storeGet (processClient gs snap st d).remote d.name =
                storeGet st.remote d.name := by
              simp [processClient, hpd, hg, hu]
            rw [this, href d (List.mem_cons_self _ _), hg]
            simp [targetEntry, hu]
          · rw [processClient_remote_updated gs snap st d e e hpd hg hu
              ((href d (List.mem_cons_self _ _)).trans hg)]
            simp [targetEntry, hu]
    · rw [runLoop]
      refine ih (processClient gs snap st a) hnd2.2
        (fun d' hd' => hp d' (List.mem_cons_of_mem _ hd')) ?_ d h1
      intro d' hd'
      rw [processClient_remote_frame gs snap st a d'.name (hne d' hd')]
      exact href d' (List.mem_cons_of_mem _ hd')

theorem processClient_satisfied (gs : Groups) (snap : CRemote) (st : CState)
    (d : DesiredClient) (e : ClientEntry) (hp : d.present = true)
    (hg : storeGet snap d.name = some e)
    (hu : clientUpdateNeeded e d.comment
      (map_groups_to_ids gs d.groups).1 = false) :
    (processClient gs snap st d).remote = st.remote ∧
      (processClient gs snap st d).results =
        st.results ++ [⟨d.name, .unchanged⟩] ∧
      (processClient gs snap st d).changed = st.changed := by
  refine ⟨?_, ?_, ?_⟩ <;> simp [processClient, hp, hg, hu]

theorem runLoopC_all_satisfied (gs : Groups) (snap : CRemote) :
    ∀ (items : List DesiredClient) (st : CState),
      (∀ d ∈ items, d.present = true ∧
        ∃ e, storeGet snap d.name = some e ∧
          clientUpdateNeeded e d.comment
            (map_groups_to_ids gs d.groups).1 = false) →
      (runLoop gs snap st items).remote = st.remote ∧
        (runLoop gs snap st items).results = st.results ++
          items.map (fun d => ⟨d.name, CAction.unchanged⟩) ∧
        (runLoop gs snap st items).changed = st.changed := by
  intro items
  induction items with
  | nil => intro st _; simp [runLoop]
  | cons d rest ih =>
    intro st h
    obtain ⟨hp, e, hg, hu⟩ := h d (List.mem_cons_self _ _)
    obtain ⟨hrem, hres, hch⟩ := processClient_satisfied gs snap st d e hp hg hu
    have hrest := ih (processClient gs snap st d)
      (fun d' hd' => h d' (List.mem_cons_of_mem _ hd'))
    refine ⟨by rw [runLoop, hrest.1, hrem],
      by rw [runLoop, hrest.2.1, hres]; simp,
      by rw [runLoop, hrest.2.2, hch]⟩

end Clients

/-- Counterexample to C3 as stated.  The claim quantifies over every
desired list of present-state items, but with two items sharing the
natural key "a" (comments "x" and "y") the first run completes
successfully (create then update, because the allow-list module fetches
the entry live per item), leaves the remote comment at "y", and the
second identical run then reports `changed=true` with an `updated` action
for the first item instead of `NOOP(unchanged)` for every item. -/
theorem c3_counterexample_duplicate_keys_not_idempotent :
    (∀ d ∈ [(⟨"a", true, some "x", [], true⟩ : AllowList.DesiredList),
        ⟨"a", true, some "y", [], true⟩], d.present = true) ∧
      (AllowList.run []
        (AllowList.run [] []
          [⟨"a", true, some "x", [], true⟩,
            ⟨"a", true, some "y", [], true⟩]).remote
        [⟨"a", true, some "x", [], true⟩,
          ⟨"a", true, some "y", [], true⟩]).changed = true ∧
      (AllowList.run []
        (AllowList.run [] []
          [⟨"a", true, some "x", [], true⟩,
            ⟨"a", true, some "y", [], true⟩]).remote
        [⟨"a", true, some "x", [], true⟩,
          ⟨"a", true, some "y", [], true⟩]).results =
        [⟨"a", .updated⟩, ⟨"a", .updated⟩] := by
  exact ⟨by decide, by decide, by decide⟩

/-- C3 amended: for a desired list in which every item has state present
and the natural keys are pairwise distinct, a second reconciliation run
against the remote state produced by the first run reports
`changed=false` and an `unchanged` action for every item, in both the
allow-list module and the clients module. -/
theorem c3_idempotent_present_runs_amended :
    (∀ (gs : Pihole.Groups) (r0 : AllowList.Remote)
        (desired : List AllowList.DesiredList),
      (∀ d ∈ desired, d.present = true) →
      (desired.map fun d => d.address).Nodup →
      (AllowList.run gs (AllowList.run gs r0 desired).remote desired).changed
          = false ∧
        (AllowList.run gs (AllowList.run gs r0 desired).remote desired).results
          = desired.map fun d => ⟨d.address, AllowList.LAction.unchanged⟩) ∧
    (∀ (gs : Pihole.Groups) (r0 : Clients.CRemote)
        (desired : List Clients.DesiredClient),
      (∀ d ∈ desired, d.present = true) →
      (desired.map fun d => d.name).Nodup →
      (Clients.run gs (Clients.run gs r0 desired).remote desired).changed
          = false ∧
        (Clients.run gs (Clients.run gs r0 desired).remote desired).results
          = desired.map fun d => ⟨d.name, Clients.CAction.unchanged⟩) := by
  constructor
  · intro gs r0 desired hp hnd
    have htgt := AllowList.runLoop_remote_target gs r0 desired
      ⟨r0, [], [], false, []⟩ hnd hp (fun d _ => rfl)
    have hr1 := AllowList.run_remote_of_present gs r0 desired hp
    have hsat : ∀ d ∈ desired, d.present = true ∧
        ∃ e, Pihole.storeGet
            (⟨(AllowList.run gs r0 desired).remote, [], [], false, []⟩ :
              AllowList.LState).remote d.address = some e ∧
          AllowList.needsUpdate e d.comment
            (Pihole.map_groups_to_ids gs d.groups).1 d.enabled = false := by
      intro d hd
      refine ⟨hp d hd, AllowList.targetEntry gs d (Pihole.storeGet r0 d.address),
        ?_, AllowList.needsUpdate_targetEntry gs d _⟩
      show Pihole.storeGet (AllowList.run gs r0 desired).remote d.address = _
      rw [hr1]
      exact htgt d hd
    have hall := AllowList.runLoop_all_satisfied gs desired
      ⟨(AllowList.run gs r0 desired).remote, [], [], false, []⟩ hsat
    constructor
    · rw [AllowList.run_changed_of_loop, hall.2.2.1]
    · rw [AllowList.run_results_of_present gs _ desired hp, hall.2.1]
      simp
  · intro gs r0 desired hp hnd
    have htgt := Clients.runLoopC_remote_target gs r0 desired
      ⟨r0, [], false, []⟩ hnd hp (fun d _ => rfl)
    have hr1 : (Clients.run gs r0 desired).remote =
        (Clients.runLoop gs r0 ⟨r0, [], false, []⟩ desired).remote := by
      rw [Clients.run_eq_runLoop_of_present gs r0 desired hp]
    have hsat : ∀ d ∈ desired, d.present = true ∧
        ∃ e, Pihole.storeGet (Clients.run gs r0 desired).remote d.name =
            some e ∧
          Clients.clientUpdateNeeded e d.comment
            (Pihole.map_groups_to_ids gs d.groups).1 = false := by
      intro d hd
      refine ⟨hp d hd, Clients.targetEntry gs d (Pihole.storeGet r0 d.name),
        ?_, Clients.clientUpdateNeeded_targetEntry gs d _⟩
      rw [hr1]
      exact htgt d hd
    have hall := Clients.runLoopC_all_satisfied gs
      (Clients.run gs r0 desired).remote desired
      ⟨(Clients.run gs r0 desired).remote, [], false, []⟩ hsat
    rw [Clients.run_eq_runLoop_of_present gs _ desired hp]
    refine ⟨hall.2.2, ?_⟩
    rw [hall.2.1]
    simp

/-- Witness for the amended C3 at a concrete input: one present item with
comment and a resolved group, created by the first run, is reported
unchanged with `changed=false` by the second run, in both modules. -/
theorem c3_idempotent_present_runs_amended_witness :
    ((AllowList.run [("Default", 0)]
        (AllowList.run [("Default", 0)] []
          [⟨"a", true, some "c", [.byName "default"], true⟩]).remote
        [⟨"a", true, some "c", [.byName "default"], true⟩]).changed = false ∧
      (AllowList.run [("Default", 0)]
        (AllowList.run [("Default", 0)] []
          [⟨"a", true, some "c", [.byName "default"], true⟩]).remote
        [⟨"a", true, some "c", [.byName "default"], true⟩]).results =
        [(⟨"a", true, some "c", [.byName "default"], true⟩ :
            AllowList.DesiredList)].map
          fun d => ⟨d.address, AllowList.LAction.unchanged⟩) ∧
    ((Clients.run [("Default", 0)]
        (Clients.run [("Default", 0)] []
          [⟨"c", true, some "k", [.byName "default"]⟩]).remote
        [⟨"c", true, some "k", [.byName "default"]⟩]).changed = false ∧
      (Clients.run [("Default", 0)]
        (Clients.run [("Default", 0)] []
          [⟨"c", true, some "k", [.byName "default"]⟩]).remote
        [⟨"c", true, some "k", [.byName "default"]⟩]).results =
        [(⟨"c", true, some "k", [.byName "default"]⟩ :
            Clients.DesiredClient)].map
          fun d => ⟨d.name, Clients.CAction.unchanged⟩) :=
  ⟨c3_idempotent_present_runs_amended.1 [("Default", 0)] []
      [⟨"a", true, some "c", [.byName "default"], true⟩]
      (by decide) (by decide),
    c3_idempotent_present_runs_amended.2 [("Default", 0)] []
      [⟨"c", true, some "k", [.byName "default"]⟩]
      (by decide) (by decide)⟩

namespace AllowList

open Pihole

theorem specAction_eq_stepAction (gs : Groups) (R : Remote) (d : DesiredList) :
    specAction d (storeGet R d.address) (map_groups_to_ids gs d.groups).1 =
      (if stepAction gs ⟨R, [], [], false, []⟩ d = .markedForDeletion
        then .deleted else stepAction gs ⟨R, [], [], false, []⟩ d) := by
  cases hp : d.present
  · cases hg : storeGet R d.address <;>
      simp [specAction, stepAction, hp, hg]
  · cases hg : storeGet R d.address
    · simp [specAction, stepAction, hp, hg]
    · case some e =>
        cases hu : needsUpdate e d.comment (map_groups_to_ids gs d.groups).1
            d.enabled <;>
          simp [specAction, stepAction, hp, hg, hu]

end AllowList

namespace Clients

open Pihole

theorem present_plus_delete_length (snap : CRemote) :
    ∀ desired : List DesiredClient,
      (desired.filter fun d => d.present).length +
        (toDelete snap desired).length =
      (desired.filter fun d =>
        d.present || (storeGet snap d.name).isSome).length := by
  intro desired
  induction desired with
  | nil => simp [toDelete]
  | cons d rest ih =>
    rw [List.filter_cons, List.filter_cons]
    cases hp : d.present
    · cases hg : storeGet snap d.name
      · have hTD : toDelete snap (d :: rest) = toDelete snap rest := by
          simp [toDelete, List.filterMap_cons, hp, hg]
        rw [hTD]
        simp [hp, hg]
        try omega
      · have hTD : toDelete snap (d :: rest) = d.name :: toDelete snap rest := by
          simp [toDelete, List.filterMap_cons, hp, hg]
        rw [hTD]
        simp [hp, hg]
        try omega
    · have hTD : toDelete snap (d :: rest) = toDelete snap rest := by
        simp [toDelete, List.filterMap_cons, hp]
      rw [hTD]
      simp [hp]
      try omega

theorem run_results_length (gs : Groups) (r0 : CRemote)
    (desired : List DesiredClient) :
    (run gs r0 desired).results.length =
      (desired.filter fun d =>
        d.present || (storeGet r0 d.name).isSome).length := by
  obtain ⟨L, hL, _, _, hlen⟩ := runLoopC_spec gs r0 desired ⟨r0, [], false, []⟩
  rw [← present_plus_delete_length r0 desired]
  by_cases hd : (toDelete r0 desired).isEmpty
  · have hnil : toDelete r0 desired = [] := by
      cases he : toDelete r0 desired
      · rfl
      · rw [he] at hd; simp at hd
    have hrun : run gs r0 desired =
        runLoop gs r0 ⟨r0, [], false, []⟩ desired := by
      simp [run, hnil]
    rw [hrun, hL, hnil]
    simp [hlen]
  · have hrun : (run gs r0 desired).results =
        (runLoop gs r0 ⟨r0, [], false, []⟩ desired).results ++
          (toDelete r0 desired).map fun n => ⟨n, .deleted⟩ := by
      simp only [run]
      rw [if_neg (by simpa using hd)]
    rw [hrun, hL]
    simp [hlen]
    try omega

end Clients

/-- Counterexample to C1 as stated.  The claim says every desired item
yields exactly one result record, but in the clients module an item with
state absent whose name is not in the snapshot is skipped by the
processing loop and never reaches the deletion section: a run over a
present item "a" and an absent missing item "b" returns one record for
two desired items. -/
theorem c1_counterexample_clients_absent_missing_skipped :
    (Clients.run [] []
        [⟨"a", true, none, []⟩, ⟨"b", false, none, []⟩]).results.length = 1 ∧
      ([(⟨"a", true, none, []⟩ : Clients.DesiredClient),
        ⟨"b", false, none, []⟩] : List Clients.DesiredClient).length = 2 ∧
      (Clients.run [] []
        [⟨"a", true, none, []⟩, ⟨"b", false, none, []⟩]).results =
        [⟨"a", .created⟩] := by
  exact ⟨by decide, by decide, by decide⟩

/-- C1 amended: in the allow-list module, a run over desired items with
pairwise distinct natural keys produces exactly one result record per
item, whose action is exactly the mapping of the claim against the
initial remote state (absent and present remotely gives `deleted` after
the deletion pass, absent and missing gives `absent_already`, present and
missing gives `added`, present and existing gives `updated` or
`unchanged` by the field comparison).  In the clients module, each
present item and each absent item whose name exists remotely produces
exactly one record, but absent items whose name is missing produce none:
the record count is the count of desired items that are present or
remotely existing. -/
theorem c1_one_record_per_item_amended :
    (∀ (gs : Pihole.Groups) (r0 : AllowList.Remote)
        (desired : List AllowList.DesiredList),
      (desired.map fun d => d.address).Nodup →
      (AllowList.run gs r0 desired).results.length = desired.length ∧
        (AllowList.run gs r0 desired).results =
          desired.map fun d => ⟨d.address,
            AllowList.specAction d (Pihole.storeGet r0 d.address)
              (Pihole.map_groups_to_ids gs d.groups).1⟩) ∧
    (∀ (gs : Pihole.Groups) (r0 : Clients.CRemote)
        (desired : List Clients.DesiredClient),
      (desired.map fun d => d.name).Nodup →
      (Clients.run gs r0 desired).results.length =
        (desired.filter fun d =>
          d.present || (Pihole.storeGet r0 d.name).isSome).length) := by
  constructor
  · intro gs r0 desired hnd
    have hres := AllowList.runLoop_results_ref gs r0 desired
      ⟨r0, [], [], false, []⟩ hnd (fun d _ => rfl)
    obtain ⟨L, hL, _, hmk⟩ :=
      AllowList.runLoop_spec gs desired ⟨r0, [], [], false, []⟩
    have hLeq : L = desired.map fun d =>
        ⟨d.address, AllowList.stepAction gs ⟨r0, [], [], false, []⟩ d⟩ := by
      have h2 := hL.symm.trans hres
      simpa using h2
    have hmain : (AllowList.run gs r0 desired).results =
        desired.map fun d => ⟨d.address,
          AllowList.specAction d (Pihole.storeGet r0 d.address)
            (Pihole.map_groups_to_ids gs d.groups).1⟩ := by
      rw [AllowList.run_results_of_loop, hres]
      simp only [List.nil_append, List.map_map]
      refine List.map_congr_left ?_
      intro d hd
      simp only [Function.comp]
      by_cases hm : AllowList.stepAction gs ⟨r0, [], [], false, []⟩ d =
          .markedForDeletion
      · have hmem : (⟨d.address,
            AllowList.stepAction gs ⟨r0, [], [], false, []⟩ d⟩ :
              AllowList.LRecord) ∈ L := by
          rw [hLeq]
          exact List.mem_map_of_mem _ hd
        have haddr := hmk _ hmem (by simpa using hm)
        rw [AllowList.specAction_eq_stepAction gs r0 d]
        simp [hm, haddr]
      · rw [AllowList.specAction_eq_stepAction gs r0 d]
        simp [hm]
    exact ⟨by rw [hmain]; simp, hmain⟩
  · intro gs r0 desired _
    exact Clients.run_results_length gs r0 desired

/-- Witness for the amended C1 at concrete inputs: a four-item allow-list
run (absent existing, absent missing, present missing, present existing
but equal) produces exactly the four claimed actions, and a clients run
over one present and one absent missing item produces one record. -/
theorem c1_one_record_per_item_amended_witness :
    ((AllowList.run [] [("d1", ⟨none, [], true⟩), ("d4", ⟨none, [], true⟩)]
        [⟨"d1", false, none, [], true⟩, ⟨"d2", false, none, [], true⟩,
          ⟨"d3", true, none, [], true⟩, ⟨"d4", true, none, [], true⟩]).results.length = 4 ∧
      (AllowList.run [] [("d1", ⟨none, [], true⟩), ("d4", ⟨none, [], true⟩)]
        [⟨"d1", false, none, [], true⟩, ⟨"d2", false, none, [], true⟩,
          ⟨"d3", true, none, [], true⟩, ⟨"d4", true, none, [], true⟩]).results =
        ([⟨"d1", false, none, [], true⟩, ⟨"d2", false, none, [], true⟩,
          ⟨"d3", true, none, [], true⟩, ⟨"d4", true, none, [], true⟩] :
            List AllowList.DesiredList).map fun d => ⟨d.address,
          AllowList.specAction d
            (Pihole.storeGet [("d1", ⟨none, [], true⟩), ("d4", ⟨none, [], true⟩)]
              d.address)
            (Pihole.map_groups_to_ids [] d.groups).1⟩) ∧
    (Clients.run [] [] [⟨"a", true, none, []⟩,
        ⟨"b", false, none, []⟩]).results.length =
      (([⟨"a", true, none, []⟩, ⟨"b", false, none, []⟩] :
          List Clients.DesiredClient).filter fun d =>
        d.present ||
          (Pihole.storeGet ([] : Clients.CRemote) d.name).isSome).length :=
  ⟨c1_one_record_per_item_amended.1 []
      [("d1", ⟨none, [], true⟩), ("d4", ⟨none, [], true⟩)]
      [⟨"d1", false, none, [], true⟩, ⟨"d2", false, none, [], true⟩,
        ⟨"d3", true, none, [], true⟩, ⟨"d4", true, none, [], true⟩]
      (by decide),
    c1_one_record_per_item_amended.2 [] []
      [⟨"a", true, none, []⟩, ⟨"b", false, none, []⟩] (by decide)⟩

/-- Counterexample to C4 as stated.  The second half of the claim says an
item with state absent whose key does not exist remotely yields
`NOOP(absent_already)`; in the clients module such an item yields no
result record at all (the run over a single absent missing client
produces an empty record list), although `changed` is indeed
unaffected. -/
theorem c4_counterexample_clients_absent_missing_no_noop :
    (Clients.run [] [] [⟨"x", false, none, []⟩]).changed = false ∧
      (Clients.run [] [] [⟨"x", false, none, []⟩]).results = [] := by
  exact ⟨by decide, by decide⟩

/-- C4 amended: for runs whose desired items have pairwise distinct
natural keys, the top-level changed flag is true exactly when some result
record carries a mutating action (`added`/`created`, `updated`, or
`deleted`); an absent item with no remote counterpart leaves changed
unaffected, yielding `absent_already` in the allow-list module and no
record in the clients module. -/
theorem c4_changed_iff_mutating_amended :
    (∀ (gs : Pihole.Groups) (r0 : AllowList.Remote)
        (desired : List AllowList.DesiredList),
      (desired.map fun d => d.address).Nodup →
      ((AllowList.run gs r0 desired).changed = true ↔
        ∃ r ∈ (AllowList.run gs r0 desired).results,
          r.action = .added ∨ r.action = .updated ∨ r.action = .deleted)) ∧
    (∀ (gs : Pihole.Groups) (r0 : Clients.CRemote)
        (desired : List Clients.DesiredClient),
      (desired.map fun d => d.name).Nodup →
      ((Clients.run gs r0 desired).changed = true ↔
        ∃ r ∈ (Clients.run gs r0 desired).results,
          r.action = .created ∨ r.action = .updated ∨ r.action = .deleted)) := by
  constructor
  · intro gs r0 desired _
    obtain ⟨L, hL, hc, hmk⟩ :=
      AllowList.runLoop_spec gs desired ⟨r0, [], [], false, []⟩
    have hres : (AllowList.run gs r0 desired).results = L.map fun x =>
        if x.action = .markedForDeletion ∧ x.address ∈
            (AllowList.runLoop gs ⟨r0, [], [], false, []⟩ desired).toDelete
        then ⟨x.address, .deleted⟩ else x := by
      rw [AllowList.run_results_of_loop, hL]
      simp
    have hch : (AllowList.run gs r0 desired).changed =
        L.any fun r => AllowList.isMut r.action := by
      rw [AllowList.run_changed_of_loop, hc]
      simp
    constructor
    · intro h
      rw [hch] at h
      obtain ⟨r, hrL, hr⟩ := List.any_eq_true.1 h
      by_cases hm : r.action = .markedForDeletion
      · have hmem := hmk r hrL hm
        refine ⟨⟨r.address, .deleted⟩, ?_, by simp⟩
        rw [hres]
        have : (⟨r.address, AllowList.LAction.deleted⟩ : AllowList.LRecord) =
            (if r.action = .markedForDeletion ∧ r.address ∈
                (AllowList.runLoop gs ⟨r0, [], [], false, []⟩ desired).toDelete
              then ⟨r.address, .deleted⟩ else r) := by
          rw [if_pos ⟨hm, hmem⟩]
        rw [this]
        exact List.mem_map_of_mem _ hrL
      · refine ⟨r, ?_, ?_⟩
        · rw [hres]
          have : r = (if r.action = .markedForDeletion ∧ r.address ∈
              (AllowList.runLoop gs ⟨r0, [], [], false, []⟩ desired).toDelete
            then ⟨r.address, .deleted⟩ else r) := by
            rw [if_neg (fun hco => hm hco.1)]
          rw [this]
          exact List.mem_map_of_mem _ hrL
        · cases hract : r.action <;> simp [AllowList.isMut, hract] at hr hm ⊢
    · intro h
      obtain ⟨x, hx, hxact⟩ := h
      rw [hres] at hx
      obtain ⟨r, hrL, hfr⟩ := List.mem_map.1 hx
      rw [hch]
      refine List.any_eq_true.2 ⟨r, hrL, ?_⟩
      by_cases hcond : r.action = .markedForDeletion ∧ r.address ∈
          (AllowList.runLoop gs ⟨r0, [], [], false, []⟩ desired).toDelete
      · simp [AllowList.isMut, hcond.1]
      · rw [if_neg hcond] at hfr
        subst hfr
        rcases hxact with h1 | h1 | h1 <;> simp [AllowList.isMut, h1]
  · intro gs r0 desired _
    obtain ⟨L, hL, hc, hact, _⟩ :=
      Clients.runLoopC_spec gs r0 desired ⟨r0, [], false, []⟩
    by_cases hd : (Clients.toDelete r0 desired).isEmpty
    · have hnil : Clients.toDelete r0 desired = [] := by
        cases he : Clients.toDelete r0 desired
        · rfl
        · rw [he] at hd; simp at hd
      have hrun : Clients.run gs r0 desired =
          Clients.runLoop gs r0 ⟨r0, [], false, []⟩ desired := by
        simp [Clients.run, hnil]
      rw [hrun, hL, hc]
      simp only [List.nil_append]
      constructor
      · intro h
        have h2 : ∃ x ∈ L, x.action = Clients.CAction.created ∨
            x.action = Clients.CAction.updated := by simpa using h
        obtain ⟨r, hrL, hr⟩ := h2
        rcases hr with h1 | h1
        · exact ⟨r, hrL, Or.inl h1⟩
        · exact ⟨r, hrL, Or.inr (Or.inl h1)⟩
      · intro h
        obtain ⟨r, hrL, hract⟩ := h
        rcases hract with h1 | h1 | h1
        · have h2 : ∃ x ∈ L, x.action = Clients.CAction.created ∨
              x.action = Clients.CAction.updated := ⟨r, hrL, Or.inl h1⟩
          simpa using h2
        · have h2 : ∃ x ∈ L, x.action = Clients.CAction.created ∨
              x.action = Clients.CAction.updated := ⟨r, hrL, Or.inr h1⟩
          simpa using h2
        · rcases hact r hrL with h2 | h2 | h2 <;> rw [h1] at h2 <;> cases h2
    · have hrun : Clients.run gs r0 desired =
          { remote := (Clients.toDelete r0 desired).foldl Pihole.storeDel
              (Clients.runLoop gs r0 ⟨r0, [], false, []⟩ desired).remote,
            results := (Clients.runLoop gs r0
                ⟨r0, [], false, []⟩ desired).results ++
              (Clients.toDelete r0 desired).map fun n => ⟨n, .deleted⟩,
            changed := true,
            warnings := (Clients.runLoop gs r0
              ⟨r0, [], false, []⟩ desired).warnings } := by
        simp only [Clients.run]
        rw [if_neg (by simpa using hd)]
      rw [hrun]
      refine iff_of_true rfl ?_
      cases he : Clients.toDelete r0 desired with
      | nil => rw [he] at hd; simp at hd
      | cons n ns =>
        refine ⟨⟨n, .deleted⟩, ?_, Or.inr (Or.inr rfl)⟩
        refine List.mem_append_right _ ?_
        exact List.mem_map_of_mem _ (List.mem_cons_self _ _)

/-- Witness for the amended C4 at concrete inputs: a run that creates one
entry reports changed with a mutating record, in both modules. -/
theorem c4_changed_iff_mutating_amended_witness :
    ((AllowList.run [] [] [⟨"a", true, none, [], true⟩]).changed = true ↔
      ∃ r ∈ (AllowList.run [] [] [⟨"a", true, none, [], true⟩]).results,
        r.action = .added ∨ r.action = .updated ∨ r.action = .deleted) ∧
    ((Clients.run [] [] [⟨"c", true, none, []⟩]).changed = true ↔
      ∃ r ∈ (Clients.run [] [] [⟨"c", true, none, []⟩]).results,
        r.action = .created ∨ r.action = .updated ∨ r.action = .deleted) :=
  ⟨c4_changed_iff_mutating_amended.1 [] [] [⟨"a", true, none, [], true⟩]
      (by decide),
    c4_changed_iff_mutating_amended.2 [] [] [⟨"c", true, none, []⟩]
      (by decide)⟩
